import Mathlib

/-!
# Verification of the bit-stream codec (`bf_write` / `bf_read`)

A shallow embedding of `src/tier1/bitbuf.cpp` (the bit-level serialization
library).  The buffer is modelled as a function from absolute bit index to
`Bool`: the source packs fields LSB-first into successive bit positions of
little-endian 32-bit words, so stream bit `i` is bit `i % 8` of byte `i / 8`
and bit `i % 32` of word `i / 32`; a single linear bit index is therefore a
faithful view of the memory layout for every access the source performs.

The low-level inline primitives (`WriteUBitLong`, `ReadUBitLong`,
`ReadOneBit`, `WriteOneBit`, `ReadChar`, the zig-zag helpers and the
encoding constants) live in headers (`bitbuf.h`, `coordsize.h`) that are not
part of this repository snapshot; they are modelled from the specification
and marked `Modelled from the spec:` in their doc comments.  Everything else
is translated from `bitbuf.cpp`.
-/

set_option maxHeartbeats 1600000

/-! ## Bit-level infrastructure -/

/-- The value of `n` consecutive stream bits starting at `start`,
least-significant-bit first (the wire order used by the codec). -/
def bitsToNat (f : Nat → Bool) (start : Nat) : Nat → Nat
  | 0 => 0
  | n + 1 => (if f start then 1 else 0) + 2 * bitsToNat f (start + 1) n

/-- Overwrite stream bits `[start, start+n)` with the low `n` bits of `v`
(LSB of `v` at `start`), leaving all other bits unchanged. -/
def writeBitsFn (f : Nat → Bool) (start v n : Nat) : Nat → Bool :=
  fun i => if start ≤ i ∧ i < start + n then v.testBit (i - start) else f i

theorem bitsToNat_lt (f : Nat → Bool) (start : Nat) :
    ∀ n, bitsToNat f start n < 2 ^ n := by
  intro n
  induction n generalizing start with
  | zero => simp [bitsToNat]
  | succ n ih =>
    have h := ih (start + 1)
    simp only [bitsToNat, pow_succ]
    cases f start <;> simp <;> omega

theorem testBit_bitsToNat (f : Nat → Bool) (start : Nat) :
    ∀ n k, (bitsToNat f start n).testBit k =
      (decide (k < n) && f (start + k)) := by
  intro n
  induction n generalizing start with
  | zero => intro k; simp [bitsToNat]
  | succ n ih =>
    intro k
    cases k with
    | zero =>
      simp only [bitsToNat, Nat.testBit_zero]
      cases hfs : f start <;> simp [hfs, Nat.add_mul_mod_self_left]
    | succ k =>
      have : (bitsToNat f start (n + 1)).testBit (k + 1) =
          (bitsToNat f (start + 1) n).testBit k := by
        simp only [bitsToNat, Nat.testBit_add_one]
        congr 1
        cases f start <;> simp <;> omega
      rw [this, ih]
      by_cases hk : k < n <;> simp [hk, Nat.lt_succ_iff, Nat.succ_le_iff] <;>
        ring_nf

theorem bitsToNat_congr {f g : Nat → Bool} {start n : Nat}
    (h : ∀ k, k < n → f (start + k) = g (start + k)) :
    bitsToNat f start n = bitsToNat g start n := by
  apply Nat.eq_of_testBit_eq
  intro i
  rw [testBit_bitsToNat, testBit_bitsToNat]
  by_cases hi : i < n
  · simp [hi, h i hi]
  · simp [hi]

/-- Reading back exactly the bits just written recovers `v % 2^n`. -/
theorem bitsToNat_writeBitsFn (f : Nat → Bool) (start v n : Nat) :
    bitsToNat (writeBitsFn f start v n) start n = v % 2 ^ n := by
  apply Nat.eq_of_testBit_eq
  intro i
  rw [testBit_bitsToNat, Nat.testBit_mod_two_pow]
  by_cases hi : i < n
  · simp [hi, writeBitsFn]
  · simp [hi]

theorem writeBitsFn_frame (f : Nat → Bool) (start v n i : Nat)
    (h : i < start ∨ start + n ≤ i) : writeBitsFn f start v n i = f i := by
  simp only [writeBitsFn]
  rw [if_neg]
  omega

/-! ## Data model

`bf_write` / `bf_read` states (bitbuf.cpp constructors, lines 210-262 and
700-754).  The debug name and the assert-on-overflow switch have no
behavioural effect on the stream and are omitted. -/

structure bf_write where
  data : Nat → Bool
  nDataBytes : Nat
  nDataBits : Nat
  iCurBit : Nat
  bOverflow : Bool

structure bf_read where
  data : Nat → Bool
  nDataBytes : Nat
  nDataBits : Nat
  iCurBit : Nat
  bOverflow : Bool

/-- `bf_write::StartWriting` (bitbuf.cpp lines 235-251): `nBytes &= ~3`
rounds the byte count down to a word multiple; `nBits = none` models the
`-1` default (capacity `nBytes*8`); cursor set to `iStartBit`, overflow
cleared.  The buffer contents are whatever the caller's memory holds. -/
def bf_write.StartWriting (pData : Nat → Bool) (nBytes : Nat)
    (iStartBit : Nat) (nBits : Option Nat) : bf_write :=
  let nBytes' := nBytes / 4 * 4
  { data := pData
    nDataBytes := nBytes'
    nDataBits := match nBits with
      | none => nBytes' * 8
      | some b => b
    iCurBit := iStartBit
    bOverflow := false }

/-- `bf_write::Reset` (bitbuf.cpp lines 253-257). -/
def bf_write.Reset (w : bf_write) : bf_write :=
  { w with iCurBit := 0, bOverflow := false }

/-- `bf_write::SeekToBit` (bitbuf.cpp lines 274-277). -/
def bf_write.SeekToBit (w : bf_write) (bitPos : Nat) : bf_write :=
  { w with iCurBit := bitPos }

/-- `bf_read::StartReading` (bitbuf.cpp lines 724-738). -/
def bf_read.StartReading (pData : Nat → Bool) (nBytes : Nat)
    (iStartBit : Nat) (nBits : Option Nat) : bf_read :=
  { data := pData
    nDataBytes := nBytes
    nDataBits := match nBits with
      | none => nBytes * 8
      | some b => b
    iCurBit := iStartBit
    bOverflow := false }

/-- `bf_read::Reset` (bitbuf.cpp lines 740-744). -/
def bf_read.Reset (r : bf_read) : bf_read :=
  { r with iCurBit := 0, bOverflow := false }

/-! ## Primitive bit operations (headers; modelled from the spec) -/

/-- Modelled from the spec: `WriteUnsignedBits(value, numBits)`
(`bf_write::WriteUBitLong`, inline in the missing `bitbuf.h`): writes the
low `numBits` bits of `curData` LSB-first at the cursor and advances it; if
`curBit + numBits > capacityBits` it sets overflow and writes nothing; in
the Overflowed state every operation is a no-op. -/
def bf_write.WriteUBitLong (w : bf_write) (curData numbits : Nat) : bf_write :=
  if w.bOverflow then w
  else if w.nDataBits < w.iCurBit + numbits then { w with bOverflow := true }
  else { w with data := writeBitsFn w.data w.iCurBit curData numbits
                iCurBit := w.iCurBit + numbits }

/-- Modelled from the spec: `WriteOneBit` (inline in the missing
`bitbuf.h`) writes a single bit; a C `int` argument is truthy iff nonzero,
so the model takes the `Bool` directly. -/
def bf_write.WriteOneBit (w : bf_write) (nValue : Bool) : bf_write :=
  w.WriteUBitLong (if nValue then 1 else 0) 1

/-- Modelled from the spec: `ReadUnsignedBits(numBits)`
(`bf_read::ReadUBitLong`, inline in the missing `bitbuf.h`): if
`cursor + numBits` exceeds `dataBits` it sets overflow and returns 0;
in the Overflowed state every operation is a no-op returning zero. -/
def bf_read.ReadUBitLong (r : bf_read) (numbits : Nat) : Nat × bf_read :=
  if r.bOverflow then (0, r)
  else if r.nDataBits < r.iCurBit + numbits then (0, { r with bOverflow := true })
  else (bitsToNat r.data r.iCurBit numbits, { r with iCurBit := r.iCurBit + numbits })

/-- Modelled from the spec: `ReadOneBit` (inline in the missing
`bitbuf.h`): a one-bit `ReadUnsignedBits`. -/
def bf_read.ReadOneBit (r : bf_read) : Nat × bf_read :=
  r.ReadUBitLong 1

/-- `bf_read::ReadSBitLong` (bitbuf.cpp lines 855-862): read `numbits`
unsigned, then subtract the full range when at or above half-range (the
source computes `r - s - s` in 32-bit arithmetic and returns it as `int`;
the model subtracts in `ℤ`). -/
def bf_read.ReadSBitLong (r : bf_read) (numbits : Nat) : Int × bf_read :=
  let u := (r.ReadUBitLong numbits).1
  let r' := (r.ReadUBitLong numbits).2
  let s : Nat := 1 <<< (numbits - 1)
  (if s ≤ u then (u : Int) - s - s else (u : Int), r')

/-- Modelled from the spec: `ReadChar` (inline in the missing `bitbuf.h`)
reads one 8-bit signed value (the writer's `WriteChar` is 8-bit signed). -/
def bf_read.ReadChar (r : bf_read) : Int × bf_read :=
  r.ReadSBitLong 8

/-- The 32-bit all-ones pattern, for modelling `uint32` arithmetic. -/
def mask32 : Nat := 2 ^ 32 - 1

/-- The `uint32` bit pattern of a C `int32`/`uint32` expression value. -/
def toUInt32 (x : Int) : Nat := (x % (2 ^ 32 : Int)).toNat

/-- The C `int32` value of a `uint32` bit pattern. -/
def ofUInt32 (u : Nat) : Int :=
  if u < 2 ^ 31 then (u : Int) else (u : Int) - 2 ^ 32

/-- `bf_write::WriteSBitLong` (bitbuf.cpp lines 279-288): mask the value to
`numbits-1` low bits, OR in the arithmetic-shift sign extension, and
delegate to `WriteUBitLong`.  (`nValue >> 31` is the arithmetic shift of
the `int` value, modelled by `Int.shiftRight`.) -/
def bf_write.WriteSBitLong (w : bf_write) (data : Int) (numbits : Nat) : bf_write :=
  let nPreserveBits : Nat := 0x7FFFFFFF >>> (32 - numbits)
  let nSignExtension : Nat := toUInt32 (data >>> (31 : Nat)) &&& (mask32 ^^^ nPreserveBits)
  let nValue : Nat := (toUInt32 data &&& nPreserveBits) ||| nSignExtension
  w.WriteUBitLong nValue numbits

/-- `bf_write::WriteChar` (bitbuf.cpp lines 638-641). -/
def bf_write.WriteChar (w : bf_write) (val : Int) : bf_write :=
  w.WriteSBitLong val 8

/-! ## Arithmetic facts about the signed-write masking -/

theorem testBit_eq_of_mod_pow_eq {a b m : Nat} (h : a % 2 ^ m = b % 2 ^ m)
    {k : Nat} (hk : k < m) : a.testBit k = b.testBit k := by
  have ha : a % 2 ^ (k + 1) = b % 2 ^ (k + 1) := by
    have hdvd : (2 : Nat) ^ (k + 1) ∣ 2 ^ m := pow_dvd_pow 2 hk
    calc a % 2 ^ (k + 1) = a % 2 ^ m % 2 ^ (k + 1) :=
          (Nat.mod_mod_of_dvd a hdvd).symm
      _ = b % 2 ^ m % 2 ^ (k + 1) := by rw [h]
      _ = b % 2 ^ (k + 1) := Nat.mod_mod_of_dvd b hdvd
  have key : ∀ x : Nat, x.testBit k = decide (x % 2 ^ (k + 1) / 2 ^ k % 2 = 1) := by
    intro x
    rw [Nat.testBit_to_div_mod, pow_succ, Nat.mod_mul_right_div_self,
      Nat.mod_mod_of_dvd _ (dvd_refl 2)]
  rw [key, key, ha]

theorem nPreserveBits_eq (p : Nat) (h1 : 1 ≤ p) (h2 : p ≤ 32) :
    (0x7FFFFFFF : Nat) >>> (32 - p) = 2 ^ (p - 1) - 1 := by
  interval_cases p <;> decide

theorem toUInt32_shift31 (x : Int) (hlo : -(2 ^ 31 : Int) ≤ x)
    (hhi : x < 2 ^ 31) :
    toUInt32 (x >>> (31 : Nat)) = if x < 0 then mask32 else 0 := by
  rcases lt_or_le x 0 with hneg | hpos
  · have : x >>> (31 : Nat) = -1 := by
      rw [Int.shiftRight_eq_div_pow]
      have : (2 : Int) ^ 31 = ((2 ^ 31 : Nat) : Int) := by push_cast
      omega
    rw [this]
    simp [toUInt32, mask32, hneg]
  · have : x >>> (31 : Nat) = 0 := by
      rw [Int.shiftRight_eq_div_pow]
      have : (2 : Int) ^ 31 = ((2 ^ 31 : Nat) : Int) := by push_cast
      omega
    rw [this]
    simp [toUInt32, not_lt.mpr hpos]

theorem toUInt32_nonneg_small (x : Int) (h0 : 0 ≤ x) (h : x < 2 ^ 31) :
    toUInt32 x = x.toNat := by
  unfold toUInt32
  congr 1
  rw [Int.emod_eq_of_lt h0 (by omega)]

theorem toUInt32_neg_small (x : Int) (h0 : x < 0) (h : -(2 ^ 31 : Int) ≤ x) :
    toUInt32 x = (x + 2 ^ 32).toNat := by
  unfold toUInt32
  congr 1
  have : x % (2 ^ 32 : Int) = (x + 2 ^ 32) % (2 ^ 32 : Int) := by
    omega
  rw [this, Int.emod_eq_of_lt (by omega) (by omega)]

theorem testBit_true_of_le_of_lt {n k : Nat} (hle : 2 ^ k ≤ n)
    (hlt : n < 2 ^ (k + 1)) : n.testBit k = true := by
  rw [Nat.testBit_to_div_mod]
  have : n / 2 ^ k = 1 := by
    apply Nat.div_eq_of_lt_le
    · simpa using hle
    · rw [pow_succ] at hlt
      omega
  simp [this]

/-- The low `p` bits produced by `WriteSBitLong`'s mask-and-sign-extend
sequence are the two's-complement pattern of `x`. -/
theorem writeSBitLong_pattern (p : Nat) (h1 : 1 ≤ p) (h2 : p ≤ 32) (x : Int)
    (hlo : -(2 ^ (p - 1) : Int) ≤ x) (hhi : x < 2 ^ (p - 1)) :
    ((toUInt32 x &&& ((0x7FFFFFFF : Nat) >>> (32 - p))) |||
     (toUInt32 (x >>> (31 : Nat)) &&& (mask32 ^^^ ((0x7FFFFFFF : Nat) >>> (32 - p))))) % 2 ^ p
    = (x + if x < 0 then (2 ^ p : Int) else 0).toNat := by
  have hp1c : ((2 ^ (p - 1) : Nat) : Int) = (2 : Int) ^ (p - 1) := by
    push_cast
    try ring
  have hpow : (2 : Nat) ^ (p - 1) * 2 = 2 ^ p := by
    rw [← pow_succ]
    congr 1
    omega
  have hple : (2 : Nat) ^ p ≤ 2 ^ 32 := Nat.pow_le_pow_right (by norm_num) h2
  have hp1le : (2 : Nat) ^ (p - 1) ≤ 2 ^ 31 :=
    Nat.pow_le_pow_right (by norm_num) (by omega)
  have hpc : ((2 ^ p : Nat) : Int) = (2 : Int) ^ p := by
    push_cast
    try ring
  have hx31 : -(2 ^ 31 : Int) ≤ x ∧ x < 2 ^ 31 := by
    constructor
    · calc -(2 ^ 31 : Int) ≤ -(2 ^ (p - 1) : Int) := by
            rw [← hp1c]; omega
        _ ≤ x := hlo
    · calc x < (2 ^ (p - 1) : Int) := hhi
        _ ≤ 2 ^ 31 := by rw [← hp1c]; omega
  rw [nPreserveBits_eq p h1 h2, toUInt32_shift31 x hx31.1 hx31.2]
  rcases lt_or_le x 0 with hneg | hpos
  · -- negative case: sign extension fills bits p-1 .. 31
    rw [if_pos hneg, if_pos hneg, toUInt32_neg_small x hneg (by omega)]
    set A : Nat := (x + 2 ^ 32).toNat with hA
    set N : Nat := (x + 2 ^ p).toNat with hN
    have hNlo : 2 ^ (p - 1) ≤ N := by
      have : ((2 ^ (p - 1) : Nat) : Int) ≤ x + 2 ^ p := by
        rw [hp1c, ← hpc]
        push_cast
        omega
      omega
    have hNhi : N < 2 ^ p := by
      have : x + (2 ^ p : Int) < ((2 ^ p : Nat) : Int) := by rw [hpc]; omega
      omega
    have hAN : A = N + 2 ^ (p - 1) * (2 * (2 ^ (32 - p) - 1)) := by
      have he : (2 : Nat) ^ (p - 1) * (2 * (2 ^ (32 - p) - 1)) = 2 ^ 32 - 2 ^ p := by
        rw [← mul_assoc, hpow, Nat.mul_sub, mul_one, ← pow_add]
        congr 2
        omega
      rw [he]
      have : x + (2 ^ 32 : Int) = (x + 2 ^ p) + (((2 ^ 32 - 2 ^ p : Nat)) : Int) := by
        push_cast [hple]
        omega
      omega
    apply Nat.eq_of_testBit_eq
    intro i
    simp only [Nat.testBit_mod_two_pow, Nat.testBit_lor, Nat.testBit_land,
      Nat.testBit_xor, Nat.testBit_two_pow_sub_one, mask32]
    rcases lt_trichotomy i (p - 1) with hi | hi | hi
    · have h1' : i < p := by omega
      have h32 : i < 32 := by omega
      have hbit : A.testBit i = N.testBit i := by
        apply testBit_eq_of_mod_pow_eq (m := p - 1) _ hi
        rw [hAN, Nat.add_mul_mod_self_left]
      simp [h1', hi, h32, hbit]
    · subst hi
      have h1' : p - 1 < p := by omega
      have h32 : p - 1 < 32 := by omega
      have hbit : N.testBit (p - 1) = true := by
        apply testBit_true_of_le_of_lt hNlo
        have : p - 1 + 1 = p := by omega
        rw [this]
        exact hNhi
      simp [h1', h32, hbit, lt_irrefl]
    · by_cases hip : i < p
      · omega
      · have hbit : N.testBit i = false :=
          Nat.testBit_lt_two_pow (lt_of_lt_of_le hNhi
            (Nat.pow_le_pow_right (by norm_num) (by omega)))
        simp [hip, hbit]
  · -- nonnegative case: no sign extension
    rw [if_neg (not_lt.mpr hpos), if_neg (not_lt.mpr hpos),
      toUInt32_nonneg_small x hpos (by omega)]
    have hxlt : x.toNat < 2 ^ (p - 1) := by omega
    rw [Nat.zero_and, Nat.or_zero, Nat.and_pow_two_sub_one_eq_mod,
      Nat.mod_eq_of_lt hxlt, Nat.mod_eq_of_lt (by omega), add_zero]

/-! ## Claim C1: fixed-width round-trip -/

/-- **C1.** For every `numBits` with `1 ≤ numBits ≤ 32` and every value
representable in `numBits` bits, writing with the fixed-width operation
(`WriteUBitLong` for unsigned, `WriteSBitLong` for signed two's-complement)
and reading back at the same bit offset with the matching reader operation
(`ReadUBitLong` / `ReadSBitLong`) yields the original value. -/
theorem c1_fixed_width_roundtrip (numbits : Nat) (h1 : 1 ≤ numbits)
    (h2 : numbits ≤ 32) :
    (∀ v : Nat, v < 2 ^ numbits →
      ∀ w : bf_write, w.bOverflow = false → w.iCurBit + numbits ≤ w.nDataBits →
      ∀ r : bf_read, r.data = (w.WriteUBitLong v numbits).data →
        r.iCurBit = w.iCurBit → r.bOverflow = false →
        w.iCurBit + numbits ≤ r.nDataBits →
        (r.ReadUBitLong numbits).1 = v) ∧
    (∀ x : Int, -(2 ^ (numbits - 1) : Int) ≤ x → x < 2 ^ (numbits - 1) →
      ∀ w : bf_write, w.bOverflow = false → w.iCurBit + numbits ≤ w.nDataBits →
      ∀ r : bf_read, r.data = (w.WriteSBitLong x numbits).data →
        r.iCurBit = w.iCurBit → r.bOverflow = false →
        w.iCurBit + numbits ≤ r.nDataBits →
        (r.ReadSBitLong numbits).1 = x) := by
  have readVal : ∀ (r : bf_read) (v : Nat) (w : bf_write),
      w.bOverflow = false → w.iCurBit + numbits ≤ w.nDataBits →
      r.data = (w.WriteUBitLong v numbits).data →
      r.iCurBit = w.iCurBit → r.bOverflow = false →
      w.iCurBit + numbits ≤ r.nDataBits →
      (r.ReadUBitLong numbits).1 = v % 2 ^ numbits := by
    intro r v w hov hfit hrdata hrcur hrov hrcap
    have hwdata : (w.WriteUBitLong v numbits).data =
        writeBitsFn w.data w.iCurBit v numbits := by
      unfold bf_write.WriteUBitLong
      rw [hov, if_neg (by simp), if_neg (by omega)]
    unfold bf_read.ReadUBitLong
    rw [hrov, if_neg (by simp), if_neg (by omega)]
    simp only [hrdata, hwdata, hrcur]
    exact bitsToNat_writeBitsFn w.data w.iCurBit v numbits
  constructor
  · intro v hv w hov hfit r hrdata hrcur hrov hrcap
    rw [readVal r v w hov hfit hrdata hrcur hrov hrcap, Nat.mod_eq_of_lt hv]
  · intro x hlo hhi w hov hfit r hrdata hrcur hrov hrcap
    have hp1le : (2 : Nat) ^ (numbits - 1) ≤ 2 ^ 31 :=
      Nat.pow_le_pow_right (by norm_num) (by omega)
    have hp1c : ((2 ^ (numbits - 1) : Nat) : Int) = (2 : Int) ^ (numbits - 1) := by
      push_cast
      try ring
    have hpc : ((2 ^ numbits : Nat) : Int) = (2 : Int) ^ numbits := by
      push_cast
      try ring
    have hpow : (2 : Nat) ^ (numbits - 1) * 2 = 2 ^ numbits := by
      rw [← pow_succ]
      congr 1
      omega
    -- WriteSBitLong is WriteUBitLong of the masked value
    unfold bf_write.WriteSBitLong at hrdata
    have hu : (r.ReadUBitLong numbits).1 =
        (x + if x < 0 then (2 ^ numbits : Int) else 0).toNat := by
      rw [readVal r _ w hov hfit hrdata hrcur hrov hrcap]
      exact writeSBitLong_pattern numbits h1 h2 x hlo hhi
    have hs : (1 : Nat) <<< (numbits - 1) = 2 ^ (numbits - 1) := by
      rw [Nat.shiftLeft_eq, one_mul]
    unfold bf_read.ReadSBitLong
    simp only [hu, hs]
    rcases lt_or_le x 0 with hneg | hpos
    · rw [if_pos hneg]
      have hle : 2 ^ (numbits - 1) ≤ (x + 2 ^ numbits).toNat := by
        have : ((2 ^ (numbits - 1) : Nat) : Int) ≤ x + 2 ^ numbits := by
          rw [hp1c]
          omega
        omega
      rw [if_pos hle]
      have hcast : (((x + 2 ^ numbits).toNat : Nat) : Int) = x + 2 ^ numbits :=
        Int.toNat_of_nonneg (by omega)
      rw [hcast]
      omega
    · rw [if_neg (not_lt.mpr hpos), add_zero]
      have hlt : x.toNat < 2 ^ (numbits - 1) := by omega
      rw [if_neg (by omega)]
      omega

/-- An all-zero caller-supplied buffer used by the concrete witnesses. -/
def zeroBuf : Nat → Bool := fun _ => false

/-- An 8-byte writer over the zero buffer (64 bits of capacity). -/
def w64 : bf_write := bf_write.StartWriting zeroBuf 8 0 none

/-- Witness for C1 at `numBits = 9, v = 300` and `numBits = 4, x = -5`. -/
theorem c1_fixed_width_roundtrip_witness :
    (1 ≤ 9 ∧ 9 ≤ 32 ∧ 300 < 2 ^ 9 ∧
      ((bf_read.StartReading (w64.WriteUBitLong 300 9).data 8 0 none).ReadUBitLong 9).1
        = 300) ∧
    (1 ≤ 4 ∧ 4 ≤ 32 ∧ -(2 ^ 3 : Int) ≤ -5 ∧ (-5 : Int) < 2 ^ 3 ∧
      ((bf_read.StartReading (w64.WriteSBitLong (-5) 4).data 8 0 none).ReadSBitLong 4).1
        = -5) :=
  ⟨⟨by decide, by decide, by decide,
    (c1_fixed_width_roundtrip 9 (by decide) (by decide)).1 300 (by decide)
      w64 rfl (by decide) _ rfl rfl rfl (by decide)⟩,
   ⟨by decide, by decide, by decide, by decide,
    (c1_fixed_width_roundtrip 4 (by decide) (by decide)).2 (-5) (by decide) (by decide)
      w64 rfl (by decide) _ rfl rfl rfl (by decide)⟩⟩

/-! ## Claim C10: PeekUBitLong -/

/-- The assembly loop inside `bf_read::PeekUBitLong` (bitbuf.cpp lines
831-841): `r |= ReadOneBit() << i` for `i = 0 .. numbits-1`; the recursion
accumulates the same LSB-first sum. -/
def bf_read.readOneBitLoop (r : bf_read) : Nat → Nat × bf_read
  | 0 => (0, r)
  | n + 1 =>
    let b := r.ReadOneBit.1
    let r1 := r.ReadOneBit.2
    (b + 2 * (r1.readOneBitLoop n).1, (r1.readOneBitLoop n).2)

/-- `bf_read::PeekUBitLong` (bitbuf.cpp lines 831-841): saves the whole
state (`bf_read savebf = *this`), assembles `numbits` single-bit reads, and
restores the saved state (`*this = savebf`) before returning the value. -/
def bf_read.PeekUBitLong (r : bf_read) (numbits : Nat) : Nat × bf_read :=
  ((r.readOneBitLoop numbits).1, r)

/-- A 4-valid-bit reader over an all-ones buffer. -/
def c10r : bf_read := bf_read.StartReading (fun _ => true) 1 0 (some 4)

/-- **C10, counterexample.**  With 4 valid bits (all ones) remaining,
`PeekUBitLong(8)` assembles the 4 available bits one at a time and returns
15, while `ReadUBitLong(8)` refuses the straddling read and returns 0 — so
the claim that the peek always returns what `ReadUBitLong` would return is
false. -/
theorem c10_peek_counterexample :
    (c10r.PeekUBitLong 8).1 = 15 ∧ (c10r.ReadUBitLong 8).1 = 0 ∧
      (15 : Nat) ≠ 0 := by
  decide

theorem readOneBitLoop_in_range (n : Nat) :
    ∀ r : bf_read, r.bOverflow = false → r.iCurBit + n ≤ r.nDataBits →
    (r.readOneBitLoop n).1 = bitsToNat r.data r.iCurBit n := by
  induction n with
  | zero => intro r _ _; rfl
  | succ n ih =>
    intro r hov hfit
    have hone : r.ReadOneBit = ((if r.data r.iCurBit then 1 else 0),
        { r with iCurBit := r.iCurBit + 1 }) := by
      unfold bf_read.ReadOneBit bf_read.ReadUBitLong
      rw [hov, if_neg (by simp), if_neg (by omega)]
      simp [bitsToNat]
    simp only [bf_read.readOneBitLoop, hone]
    rw [ih _ (by simp [hov]) (by simp; omega)]
    simp [bitsToNat]

/-- **C10, amended.**  `PeekUBitLong(numbits)` always restores the entire
reader state (cursor and overflow flag, via the saved-state copy), and it
returns the value `ReadUBitLong(numbits)` would return provided the read
fits within the declared valid length; when the request straddles the end
of the valid data the peek instead assembles the partial bits while
`ReadUBitLong` returns 0. -/
theorem c10_peek_amended (r : bf_read) (numbits : Nat)
    (hov : r.bOverflow = false) (hfit : r.iCurBit + numbits ≤ r.nDataBits) :
    (r.PeekUBitLong numbits).1 = (r.ReadUBitLong numbits).1 ∧
    (r.PeekUBitLong numbits).2 = r := by
  refine ⟨?_, rfl⟩
  unfold bf_read.PeekUBitLong bf_read.ReadUBitLong
  rw [hov, if_neg (by simp), if_neg (by omega)]
  exact readOneBitLoop_in_range numbits r hov hfit

/-- Witness for the amended C10 at a concrete in-range state. -/
theorem c10_peek_amended_witness :
    c10r.bOverflow = false ∧ c10r.iCurBit + 4 ≤ c10r.nDataBits ∧
    (c10r.PeekUBitLong 4).1 = (c10r.ReadUBitLong 4).1 ∧
    (c10r.PeekUBitLong 4).2 = c10r :=
  ⟨rfl, by decide, (c10_peek_amended c10r 4 rfl (by decide)).1,
    (c10_peek_amended c10r 4 rfl (by decide)).2⟩

/-! ## Bulk writes: `bf_write::WriteBits` (bitbuf.cpp lines 445-506)

The input pointer is modelled as a 4-byte-aligned list of bytes, so the
initial pointer-alignment loop (lines 458-463) does not execute, and
`IsPC()` is taken as true.  Little-endian words and LSB-first packing agree
with the linear bit indexing, so `Q_memcpy` is a sequence of byte stores
and the masked word stores operate on 32 aligned stream bits. -/

/-- Store one byte (8 stream bits) at byte position `bytePos`. -/
def writeByteAt (f : Nat → Bool) (bytePos b : Nat) : Nat → Bool :=
  writeBitsFn f (8 * bytePos) b 8

/-- The byte (8 stream bits) at byte position `bytePos`. -/
def byteAtBits (f : Nat → Bool) (bytePos : Nat) : Nat :=
  bitsToNat f (8 * bytePos) 8

/-- `target[k] &= 0x7F`: read-modify-write of one byte. -/
def andByteAt (f : Nat → Bool) (bytePos : Nat) : Nat → Bool :=
  writeByteAt f bytePos (byteAtBits f bytePos &&& 0x7F)

/-- `Q_memcpy` of `count` bytes from `src[off..]` to byte position
`bytePos` (bitbuf.cpp line 468). -/
def copyBytes (src : List Nat) : (Nat → Bool) → Nat → Nat → Nat → (Nat → Bool)
  | f, _, _, 0 => f
  | f, bytePos, off, n + 1 =>
    copyBytes src (writeByteAt f bytePos (src.getD off 0)) (bytePos + 1) (off + 1) n

/-- The mask table `g_BitWriteMasks` (bitbuf.cpp lines 82-97):
`BitForBitnum(b) = 1 << (b & 31)`, and the complement is 32-bit. -/
def g_BitWriteMasks (startBit bitsLeft : Nat) : Nat :=
  ((1 <<< (startBit % 32)) - 1) |||
    (if startBit + bitsLeft < 32 then
      mask32 ^^^ ((1 <<< ((startBit + bitsLeft) % 32)) - 1) else 0)

/-- `*(uint32*)pOut`: the little-endian word formed by four source bytes. -/
def wordFromBytes (src : List Nat) (off : Nat) : Nat :=
  src.getD off 0 % 256 + 256 * (src.getD (off + 1) 0 % 256) +
    65536 * (src.getD (off + 2) 0 % 256) + 16777216 * (src.getD (off + 3) 0 % 256)

/-- The 32 stream bits of word `wordPos`. -/
def wordAtBits (f : Nat → Bool) (wordPos : Nat) : Nat :=
  bitsToNat f (32 * wordPos) 32

/-- Store a 32-bit value at word position `wordPos`. -/
def setWordAt (f : Nat → Bool) (wordPos v : Nat) : Nat → Bool :=
  writeBitsFn f (32 * wordPos) v 32

/-- One iteration of the misaligned word loop of `WriteBits` (bitbuf.cpp
lines 475-495).  The source hoists `iBitsRight`, the two masks and `pData`
out of the loop; since `m_iCurBit` advances by exactly 32 per iteration,
recomputing them each iteration yields the same values. -/
def bf_write.writeBitsWordStep (w : bf_write) (curData : Nat) : bf_write :=
  let iBitsRight := w.iCurBit &&& 31
  let iBitsLeft := 32 - iBitsRight
  let bitMaskLeft := g_BitWriteMasks iBitsRight 32
  let bitMaskRight := g_BitWriteMasks 0 iBitsRight
  let p := w.iCurBit >>> 5
  let f1 := setWordAt w.data p
    ((wordAtBits w.data p &&& bitMaskLeft) ||| ((curData <<< iBitsRight) % 2 ^ 32))
  let f2 := if iBitsLeft < 32 then
      setWordAt f1 (p + 1)
        ((wordAtBits f1 (p + 1) &&& bitMaskRight) ||| (curData >>> iBitsLeft))
    else f1
  { w with data := f2, iCurBit := w.iCurBit + 32 }

/-- The misaligned word loop of `WriteBits` (bitbuf.cpp lines 473-496). -/
def bf_write.writeBitsWordLoop (w : bf_write) (src : List Nat)
    (off nBitsLeft : Nat) : bf_write × Nat × Nat :=
  if h : 32 ≤ nBitsLeft then
    (w.writeBitsWordStep (wordFromBytes src off)).writeBitsWordLoop src
      (off + 4) (nBitsLeft - 32)
  else (w, off, nBitsLeft)
termination_by nBitsLeft
decreasing_by omega

/-- The trailing whole-byte loop of `WriteBits` (bitbuf.cpp lines 497-502). -/
def bf_write.writeBitsByteLoop (w : bf_write) (src : List Nat)
    (off nBitsLeft : Nat) : bf_write × Nat × Nat :=
  if h : 8 ≤ nBitsLeft then
    (w.WriteUBitLong (src.getD off 0) 8).writeBitsByteLoop src
      (off + 1) (nBitsLeft - 8)
  else (w, off, nBitsLeft)
termination_by nBitsLeft
decreasing_by omega

/-- The common tail of `WriteBits` after the optional memcpy fast path:
the masked word loop, the per-byte loop and the final sub-byte write
(bitbuf.cpp lines 473-504), factored out so the two entry paths share it. -/
def bf_write.writeBitsTail (w : bf_write) (src : List Nat) (off left : Nat) :
    bf_write :=
  let s2 := w.writeBitsWordLoop src off left
  let s3 := s2.1.writeBitsByteLoop src s2.2.1 s2.2.2
  if s3.2.2 ≠ 0 then s3.1.WriteUBitLong (src.getD s3.2.1 0) s3.2.2 else s3.1

/-- `bf_write::WriteBits` (bitbuf.cpp lines 445-506): capacity check first
(overflow and `false` on failure, touching nothing); byte-aligned
`Q_memcpy` fast path for whole bytes; then the word/byte/sub-byte tail;
returns `!IsOverflowed()`. -/
def bf_write.WriteBits (w : bf_write) (src : List Nat) (nBits : Nat) :
    Bool × bf_write :=
  if w.nDataBits < w.iCurBit + nBits then
    (false, { w with bOverflow := true })
  else
    let w4 :=
      if 32 ≤ nBits ∧ w.iCurBit &&& 7 = 0 then
        let numbytes := nBits >>> 3
        ({ w with data := copyBytes src w.data (w.iCurBit >>> 3) 0 numbytes,
                  iCurBit := w.iCurBit + (numbytes <<< 3) }).writeBitsTail src
          numbytes (nBits - (numbytes <<< 3))
      else w.writeBitsTail src 0 nBits
    (!w4.bOverflow, w4)

theorem WriteUBitLong_of_overflow (w : bf_write) (v n : Nat)
    (hov : w.bOverflow = true) : w.WriteUBitLong v n = w := by
  unfold bf_write.WriteUBitLong
  rw [hov]
  simp

theorem writeBitsWordStep_book (w : bf_write) (d : Nat) :
    (w.writeBitsWordStep d).bOverflow = w.bOverflow ∧
    (w.writeBitsWordStep d).nDataBits = w.nDataBits ∧
    (w.writeBitsWordStep d).iCurBit = w.iCurBit + 32 := by
  unfold bf_write.writeBitsWordStep
  refine ⟨rfl, rfl, rfl⟩

theorem writeBitsWordLoop_book (src : List Nat) :
    ∀ left (w : bf_write) (off : Nat),
      (w.writeBitsWordLoop src off left).1.bOverflow = w.bOverflow ∧
      (w.writeBitsWordLoop src off left).1.nDataBits = w.nDataBits ∧
      (w.writeBitsWordLoop src off left).2.2 ≤ left ∧
      (w.writeBitsWordLoop src off left).2.2 < 32 ∧
      (w.writeBitsWordLoop src off left).1.iCurBit + (w.writeBitsWordLoop src off left).2.2
        = w.iCurBit + left := by
  intro left
  induction left using Nat.strong_induction_on with
  | _ left ih =>
    intro w off
    unfold bf_write.writeBitsWordLoop
    by_cases h : 32 ≤ left
    · rw [dif_pos h]
      have hb := writeBitsWordStep_book w (wordFromBytes src off)
      have := ih (left - 32) (by omega) (w.writeBitsWordStep (wordFromBytes src off)) (off + 4)
      refine ⟨by rw [this.1, hb.1], by rw [this.2.1, hb.2.1], by omega, this.2.2.2.1, ?_⟩
      have h5 := this.2.2.2.2
      rw [hb.2.2] at h5
      omega
    · rw [dif_neg h]
      exact ⟨rfl, rfl, le_refl _, by show left < 32; omega, rfl⟩

theorem writeBitsByteLoop_of_overflow (src : List Nat) :
    ∀ left (w : bf_write) (off : Nat), w.bOverflow = true →
      (w.writeBitsByteLoop src off left).1 = w := by
  intro left
  induction left using Nat.strong_induction_on with
  | _ left ih =>
    intro w off hov
    unfold bf_write.writeBitsByteLoop
    by_cases h : 8 ≤ left
    · rw [dif_pos h, WriteUBitLong_of_overflow w _ _ hov]
      exact ih (left - 8) (by omega) w (off + 1) hov
    · rw [dif_neg h]

theorem writeBitsByteLoop_book (src : List Nat) :
    ∀ left (w : bf_write) (off : Nat), w.bOverflow = false →
      w.iCurBit + left ≤ w.nDataBits →
      (w.writeBitsByteLoop src off left).1.bOverflow = false ∧
      (w.writeBitsByteLoop src off left).1.nDataBits = w.nDataBits ∧
      (w.writeBitsByteLoop src off left).2.2 < 8 ∧
      (w.writeBitsByteLoop src off left).1.iCurBit + (w.writeBitsByteLoop src off left).2.2
        = w.iCurBit + left := by
  intro left
  induction left using Nat.strong_induction_on with
  | _ left ih =>
    intro w off hov hfit
    unfold bf_write.writeBitsByteLoop
    by_cases h : 8 ≤ left
    · rw [dif_pos h]
      have hw : w.WriteUBitLong (src.getD off 0) 8 =
          { w with data := writeBitsFn w.data w.iCurBit (src.getD off 0) 8,
                   iCurBit := w.iCurBit + 8 } := by
        unfold bf_write.WriteUBitLong
        rw [hov, if_neg (by simp), if_neg (by omega)]
      have := ih (left - 8) (by omega) (w.WriteUBitLong (src.getD off 0) 8) (off + 1)
        (by rw [hw]; exact hov) (by rw [hw]; show w.iCurBit + 8 + (left - 8) ≤ w.nDataBits; omega)
      rw [hw] at this ⊢
      refine ⟨this.1, this.2.1, this.2.2.1, ?_⟩
      have := this.2.2.2
      simp only at this
      omega
    · rw [dif_neg h]
      exact ⟨hov, rfl, by show left < 8; omega, rfl⟩

theorem writeBitsTail_book (src : List Nat) (w : bf_write) (off left : Nat)
    (hov : w.bOverflow = false) (hfit : w.iCurBit + left ≤ w.nDataBits) :
    (w.writeBitsTail src off left).bOverflow = false ∧
    (w.writeBitsTail src off left).iCurBit = w.iCurBit + left ∧
    (w.writeBitsTail src off left).nDataBits = w.nDataBits := by
  have hword := writeBitsWordLoop_book src left w off
  unfold bf_write.writeBitsTail
  rcases hs2 : w.writeBitsWordLoop src off left with ⟨w2, off2, left2⟩
  rw [hs2] at hword
  simp only at hword
  have hbyte := writeBitsByteLoop_book src left2 w2 off2
    (by rw [hword.1, hov]) (by omega)
  rcases hs3 : w2.writeBitsByteLoop src off2 left2 with ⟨w3, off3, left3⟩
  rw [hs3] at hbyte
  simp only at hbyte
  simp only [hs2, hs3]
  by_cases hz : left3 ≠ 0
  · rw [if_pos hz]
    unfold bf_write.WriteUBitLong
    rw [if_neg (by simp [hbyte.1]), if_neg (by omega)]
    exact ⟨hbyte.1, by show w3.iCurBit + left3 = w.iCurBit + left; omega,
      by show w3.nDataBits = w.nDataBits; rw [hbyte.2.1, hword.2.1]⟩
  · rw [if_neg hz]
    exact ⟨hbyte.1, by omega, by rw [hbyte.2.1, hword.2.1]⟩

theorem writeBitsTail_of_overflow (src : List Nat) (w : bf_write)
    (off left : Nat) (hov : w.bOverflow = true) :
    (w.writeBitsTail src off left).bOverflow = true := by
  have hword := writeBitsWordLoop_book src left w off
  unfold bf_write.writeBitsTail
  rcases hs2 : w.writeBitsWordLoop src off left with ⟨w2, off2, left2⟩
  rw [hs2] at hword
  simp only at hword
  have hw2 : w2.bOverflow = true := by rw [hword.1, hov]
  have hbyte := writeBitsByteLoop_of_overflow src left2 w2 off2 hw2
  rcases hs3 : w2.writeBitsByteLoop src off2 left2 with ⟨w3, off3, left3⟩
  rw [hs3] at hbyte
  simp only at hbyte
  simp only [hs2, hs3]
  by_cases hz : left3 ≠ 0
  · rw [if_pos hz, hbyte, WriteUBitLong_of_overflow _ _ _ hw2]
    exact hw2
  · rw [if_neg hz, hbyte]
    exact hw2

/-! ## Claim C5: overflow boundary for `WriteBits` -/

/-- **C5.**  Writing bits that exactly reach `capacityBits` succeeds
(returns true) and leaves the overflow flag false, with the cursor at the
capacity; a request that would exceed capacity (in particular by a single
bit) returns false, sets the overflow flag, and leaves the writer otherwise
completely unchanged — same cursor, same buffer contents, so no byte
beyond the capacity and no previously committed bit is touched. -/
theorem c5_overflow_boundary :
    (∀ (w : bf_write) (src : List Nat) (nBits : Nat),
      w.bOverflow = false → w.iCurBit + nBits = w.nDataBits →
      (w.WriteBits src nBits).1 = true ∧
      (w.WriteBits src nBits).2.bOverflow = false ∧
      (w.WriteBits src nBits).2.iCurBit = w.nDataBits) ∧
    (∀ (w : bf_write) (src : List Nat) (nBits : Nat),
      w.nDataBits < w.iCurBit + nBits →
      (w.WriteBits src nBits).1 = false ∧
      (w.WriteBits src nBits).2 = { w with bOverflow := true }) := by
  constructor
  · intro w src nBits hov hfit
    unfold bf_write.WriteBits
    rw [if_neg (by omega)]
    have h83 : (nBits >>> 3) <<< 3 ≤ nBits := by
      rw [Nat.shiftRight_eq_div_pow, Nat.shiftLeft_eq]
      exact Nat.div_mul_le_self nBits (2 ^ 3)
    by_cases hc : 32 ≤ nBits ∧ w.iCurBit &&& 7 = 0
    · rw [if_pos hc]
      have htail := writeBitsTail_book src
        { w with data := copyBytes src w.data (w.iCurBit >>> 3) 0 (nBits >>> 3),
                 iCurBit := w.iCurBit + ((nBits >>> 3) <<< 3) }
        (nBits >>> 3) (nBits - ((nBits >>> 3) <<< 3)) hov
        (by simp only []; omega)
      refine ⟨by simp [htail.1], by simp [htail.1], ?_⟩
      show (bf_write.writeBitsTail _ src _ _).iCurBit = w.nDataBits
      rw [htail.2.1]
      simp only []
      omega
    · rw [if_neg hc]
      have htail := writeBitsTail_book src w 0 nBits hov (by omega)
      exact ⟨by simp [htail.1], by simp [htail.1], by rw [htail.2.1]; omega⟩
  · intro w src nBits hover
    unfold bf_write.WriteBits
    rw [if_pos (by omega)]
    exact ⟨rfl, rfl⟩

/-- Witness for C5 at a concrete 64-bit-capacity writer. -/
theorem c5_overflow_boundary_witness :
    (w64.bOverflow = false ∧ w64.iCurBit + 64 = w64.nDataBits ∧
      (w64.WriteBits (List.replicate 8 255) 64).1 = true ∧
      (w64.WriteBits (List.replicate 8 255) 64).2.bOverflow = false ∧
      (w64.WriteBits (List.replicate 8 255) 64).2.iCurBit = w64.nDataBits) ∧
    (w64.nDataBits < w64.iCurBit + 65 ∧
      (w64.WriteBits (List.replicate 9 255) 65).1 = false ∧
      (w64.WriteBits (List.replicate 9 255) 65).2 = { w64 with bOverflow := true }) :=
  ⟨⟨rfl, by decide,
    (c5_overflow_boundary.1 w64 (List.replicate 8 255) 64 rfl (by decide)).1,
    (c5_overflow_boundary.1 w64 (List.replicate 8 255) 64 rfl (by decide)).2.1,
    (c5_overflow_boundary.1 w64 (List.replicate 8 255) 64 rfl (by decide)).2.2⟩,
   ⟨by decide,
    (c5_overflow_boundary.2 w64 (List.replicate 9 255) 65 (by decide)).1,
    (c5_overflow_boundary.2 w64 (List.replicate 9 255) 65 (by decide)).2⟩⟩

/-! ## Claim C4: sticky overflow -/

/-- A 64-bit-capacity writer already in the Overflowed state. -/
def c4w : bf_write :=
  { data := zeroBuf, nDataBytes := 8, nDataBits := 64, iCurBit := 0,
    bOverflow := true }

/-- **C4, counterexample.**  A writer whose overflow flag is set (e.g. by an
earlier oversized `WriteBits`, which does not move the cursor) but whose
next request fits the remaining capacity: `WriteBits` takes the memcpy fast
path, stores the source bytes and advances the cursor by 32 bits — it is
not a no-op, contradicting the claim that every operation in the
Overflowed state writes no bits and consumes no bits. -/
theorem c4_sticky_overflow_counterexample :
    c4w.bOverflow = true ∧ c4w.iCurBit = 0 ∧ c4w.data 0 = false ∧
    (c4w.WriteBits [255, 255, 255, 255] 32).2.iCurBit = 32 ∧
    (c4w.WriteBits [255, 255, 255, 255] 32).2.data 0 = true := by
  refine ⟨rfl, rfl, rfl, ?_, ?_⟩ <;>
    simp [c4w, zeroBuf, bf_write.WriteBits, bf_write.writeBitsTail,
      bf_write.writeBitsWordLoop, bf_write.writeBitsByteLoop, copyBytes,
      writeByteAt, writeBitsFn, bf_write.WriteUBitLong]

/-- **C4, amended.**  Once the overflow flag is set it is sticky: every
subsequent operation returns failure/zero and never clears it, and the
bit-level primitives are complete no-ops; `Reset` (and a rebind, which runs
the same cursor/flag assignments) sets the cursor to 0 and clears the flag.
However, `WriteBits` in an overflowed writer checks only the remaining
capacity, so a request that fits may still store bytes and advance the
cursor (while returning false and keeping the flag set). -/
theorem c4_sticky_overflow_amended :
    (∀ (w : bf_write) (src : List Nat) (nBits : Nat), w.bOverflow = true →
      (w.WriteBits src nBits).1 = false ∧
      (w.WriteBits src nBits).2.bOverflow = true) ∧
    (∀ (w : bf_write) (v n : Nat), w.bOverflow = true →
      w.WriteUBitLong v n = w) ∧
    (∀ (r : bf_read) (n : Nat), r.bOverflow = true →
      r.ReadUBitLong n = (0, r)) ∧
    (∀ w : bf_write, w.Reset.iCurBit = 0 ∧ w.Reset.bOverflow = false) ∧
    (∀ r : bf_read, r.Reset.iCurBit = 0 ∧ r.Reset.bOverflow = false) := by
  refine ⟨?_, ?_, ?_, fun w => ⟨rfl, rfl⟩, fun r => ⟨rfl, rfl⟩⟩
  · intro w src nBits hov
    unfold bf_write.WriteBits
    by_cases hcap : w.nDataBits < w.iCurBit + nBits
    · rw [if_pos hcap]
      exact ⟨rfl, rfl⟩
    · rw [if_neg hcap]
      by_cases hc : 32 ≤ nBits ∧ w.iCurBit &&& 7 = 0
      · rw [if_pos hc]
        have := writeBitsTail_of_overflow src
          { w with data := copyBytes src w.data (w.iCurBit >>> 3) 0 (nBits >>> 3),
                   iCurBit := w.iCurBit + ((nBits >>> 3) <<< 3) }
          (nBits >>> 3) (nBits - ((nBits >>> 3) <<< 3)) hov
        exact ⟨by simp [this], this⟩
      · rw [if_neg hc]
        have := writeBitsTail_of_overflow src w 0 nBits hov
        exact ⟨by simp [this], this⟩
  · intro w v n hov
    exact WriteUBitLong_of_overflow w v n hov
  · intro r n hov
    unfold bf_read.ReadUBitLong
    rw [hov]
    simp

/-- A reader already in the Overflowed state. -/
def c4r : bf_read :=
  { data := zeroBuf, nDataBytes := 8, nDataBits := 64, iCurBit := 0,
    bOverflow := true }

/-- Witness for the amended C4 at concrete overflowed states. -/
theorem c4_sticky_overflow_amended_witness :
    c4w.bOverflow = true ∧ c4r.bOverflow = true ∧
    (c4w.WriteBits [255, 255, 255, 255] 32).1 = false ∧
    (c4w.WriteBits [255, 255, 255, 255] 32).2.bOverflow = true ∧
    c4w.WriteUBitLong 7 3 = c4w ∧
    c4r.ReadUBitLong 8 = (0, c4r) ∧
    c4w.Reset.iCurBit = 0 ∧ c4w.Reset.bOverflow = false :=
  ⟨rfl, rfl,
   (c4_sticky_overflow_amended.1 c4w [255, 255, 255, 255] 32 rfl).1,
   (c4_sticky_overflow_amended.1 c4w [255, 255, 255, 255] 32 rfl).2,
   c4_sticky_overflow_amended.2.1 c4w 7 3 rfl,
   c4_sticky_overflow_amended.2.2.1 c4r 8 rfl,
   (c4_sticky_overflow_amended.2.2.2.1 c4w).1,
   (c4_sticky_overflow_amended.2.2.2.1 c4w).2⟩

/-! ## Claim C9: quantized coordinates

Floating-point coordinates are modelled over `ℚ`; every representative
input below (and every intermediate the code computes on them) is exactly
representable as an IEEE float, so the rational model computes the same
values the float code does.  In the model `-0.0` coincides with `0`, and
the float code encodes `-0.0` exactly like `0.0` (`fabs`/truncation both
yield integer and fractional parts 0). -/

/-- The C cast `(int)q`: truncation toward zero (floor for nonnegative
values, negated floor of the negation otherwise). -/
def cppTrunc (q : ℚ) : Int := if 0 ≤ q then ⌊q⌋ else -⌊-q⌋

/-- The C `fabs`, written as an executable conditional over `ℚ`. -/
def ratAbs (q : ℚ) : ℚ := if q < 0 then -q else q

/-- Modelled from the spec: `COORD_INTEGER_BITS` (coordsize.h, absent from
src): the coordinate integer-part width, 14 (spec section 6). -/
def COORD_INTEGER_BITS : Nat := 14

/-- Modelled from the spec: `COORD_FRACTIONAL_BITS` (coordsize.h): the
coordinate fractional-part width, 5 (spec section 6). -/
def COORD_FRACTIONAL_BITS : Nat := 5

/-- Modelled from the spec: `COORD_DENOMINATOR = 1 << COORD_FRACTIONAL_BITS`. -/
def COORD_DENOMINATOR : Nat := 1 <<< COORD_FRACTIONAL_BITS

/-- Modelled from the spec: `COORD_RESOLUTION = 1.0 / COORD_DENOMINATOR`,
the fractional quantization step. -/
def COORD_RESOLUTION : ℚ := 1 / (COORD_DENOMINATOR : ℚ)

/-- `bf_write::WriteBitCoord` (bitbuf.cpp lines 575-598). -/
def bf_write.WriteBitCoord (w : bf_write) (f : ℚ) : bf_write :=
  let signBit : Bool := decide (f ≤ -COORD_RESOLUTION)
  let intVal : Int := cppTrunc (ratAbs f)
  let fractVal : Nat :=
    (cppTrunc (f * (COORD_DENOMINATOR : ℚ))).natAbs &&& (COORD_DENOMINATOR - 1)
  let w1 := w.WriteOneBit (intVal != 0)
  let w2 := w1.WriteOneBit (fractVal != 0)
  if intVal != 0 || fractVal != 0 then
    let w3 := w2.WriteOneBit signBit
    let w4 := if intVal != 0 then
        w3.WriteUBitLong (intVal - 1).toNat COORD_INTEGER_BITS
      else w3
    if fractVal != 0 then w4.WriteUBitLong fractVal COORD_FRACTIONAL_BITS
    else w4
  else w2

/-- `bf_read::ReadBitCoord` (bitbuf.cpp lines 916-937). -/
def bf_read.ReadBitCoord (r : bf_read) : ℚ × bf_read :=
  let p1 := r.ReadOneBit
  let p2 := p1.2.ReadOneBit
  if p1.1 ≠ 0 ∨ p2.1 ≠ 0 then
    let p3 := p2.2.ReadOneBit
    let p4 := if p1.1 ≠ 0 then
        ((p3.2.ReadUBitLong COORD_INTEGER_BITS).1 + 1,
         (p3.2.ReadUBitLong COORD_INTEGER_BITS).2)
      else (0, p3.2)
    let p5 := if p2.1 ≠ 0 then p4.2.ReadUBitLong COORD_FRACTIONAL_BITS
      else (0, p4.2)
    let value : ℚ := (p4.1 : ℚ) + (p5.1 : ℚ) * COORD_RESOLUTION
    (if p3.1 ≠ 0 then -value else value, p5.2)
  else (0, p2.2)

/-- Write `f` with `WriteBitCoord` into a fresh 64-bit buffer and read it
back with `ReadBitCoord` at bit offset 0. -/
def coordRoundTrip (f : ℚ) : ℚ :=
  ((bf_read.StartReading (w64.WriteBitCoord f).data 8 0 none).ReadBitCoord).1

/-- **C9.**  For the representative inputs — `0.0` (and `-0.0`, identical
in the model and identically encoded by the float code), `±12.5`,
`16384.5` (near the 14-bit integer-part limit), the smallest nonzero step
`1/32`, and an off-grid value `3/64` — the coordinate round-trip is within
one fractional quantization step (`COORD_RESOLUTION = 1/32`), and `0.0`
round-trips to exactly `0.0`. -/


theorem WriteUBitLong_eq (w : bf_write) (v n : Nat)
    (hov : w.bOverflow = false) (hfit : w.iCurBit + n ≤ w.nDataBits) :
    w.WriteUBitLong v n =
      { w with data := writeBitsFn w.data w.iCurBit v n,
               iCurBit := w.iCurBit + n } := by
  unfold bf_write.WriteUBitLong
  rw [if_neg (by simp [hov]), if_neg (by omega)]

theorem ReadUBitLong_eq (r : bf_read) (n : Nat)
    (hov : r.bOverflow = false) (hfit : r.iCurBit + n ≤ r.nDataBits) :
    r.ReadUBitLong n = (bitsToNat r.data r.iCurBit n,
      { r with iCurBit := r.iCurBit + n }) := by
  unfold bf_read.ReadUBitLong
  rw [if_neg (by simp [hov]), if_neg (by omega)]

theorem bitsToNat_frame_le (f : Nat → Bool) (s2 v2 n2 s n : Nat)
    (h : s + n ≤ s2) :
    bitsToNat (writeBitsFn f s2 v2 n2) s n = bitsToNat f s n := by
  apply bitsToNat_congr
  intro k hk
  exact writeBitsFn_frame f s2 v2 n2 (s + k) (Or.inl (by omega))

theorem bitsToNat_one (f : Nat → Bool) (s : Nat) :
    bitsToNat f s 1 = if f s then 1 else 0 := by
  simp [bitsToNat]

/-- The value `ReadBitCoord` reconstructs for input `f`: the truncated
integer part and masked fractional part with the written sign. -/
def coordQuant (f : ℚ) : ℚ :=
  let intVal : Int := cppTrunc (ratAbs f)
  let fractVal : Nat :=
    (cppTrunc (f * (COORD_DENOMINATOR : ℚ))).natAbs &&& (COORD_DENOMINATOR - 1)
  if intVal = 0 ∧ fractVal = 0 then 0
  else if f ≤ -COORD_RESOLUTION then
    -((intVal : ℚ) + (fractVal : ℚ) * COORD_RESOLUTION)
  else (intVal : ℚ) + (fractVal : ℚ) * COORD_RESOLUTION

theorem ratAbs_nonneg (f : ℚ) : 0 ≤ ratAbs f := by
  unfold ratAbs
  by_cases h : f < 0
  · rw [if_pos h]
    linarith
  · rw [if_neg h]
    linarith

theorem cppTrunc_nonneg {q : ℚ} (h : 0 ≤ q) : 0 ≤ cppTrunc q := by
  unfold cppTrunc
  rw [if_pos h]
  exact Int.floor_nonneg.mpr h

theorem and31_lt (x : Nat) : x &&& (COORD_DENOMINATOR - 1) < 32 := by
  have h31 : COORD_DENOMINATOR - 1 = 2 ^ 5 - 1 := by decide
  rw [h31, Nat.and_pow_two_sub_one_eq_mod]
  exact Nat.mod_lt _ (by norm_num)

theorem WriteOneBit_eq (w : bf_write) (b : Bool) (hov : w.bOverflow = false)
    (hfit : w.iCurBit + 1 ≤ w.nDataBits) :
    w.WriteOneBit b =
      { w with data := writeBitsFn w.data w.iCurBit (if b then 1 else 0) 1,
               iCurBit := w.iCurBit + 1 } := by
  unfold bf_write.WriteOneBit
  exact WriteUBitLong_eq w _ 1 hov hfit

/-- `WriteBitCoord` followed by `ReadBitCoord` at the same offset yields
the quantized value `coordQuant f`, provided the integer part fits the
14-bit field. -/
theorem coord_roundtrip_general (w : bf_write) (f : ℚ)
    (hov : w.bOverflow = false) (hfit : w.iCurBit + 22 ≤ w.nDataBits)
    (hint : cppTrunc (ratAbs f) ≤ 16384)
    (r : bf_read) (hrdata : r.data = (w.WriteBitCoord f).data)
    (hrcur : r.iCurBit = w.iCurBit) (hrov : r.bOverflow = false)
    (hrcap : w.iCurBit + 22 ≤ r.nDataBits) :
    r.ReadBitCoord.1 = coordQuant f := by
  have hiv0 : 0 ≤ cppTrunc (ratAbs f) := cppTrunc_nonneg (ratAbs_nonneg f)
  have hfvlt := and31_lt (cppTrunc (f * (COORD_DENOMINATOR : ℚ))).natAbs
  set iv := cppTrunc (ratAbs f) with hiv
  set fv := (cppTrunc (f * (COORD_DENOMINATOR : ℚ))).natAbs &&&
    (COORD_DENOMINATOR - 1) with hfv
  by_cases hI : iv = 0 <;> by_cases hF : fv = 0
  · -- no integer part, no fractional part: two zero flag bits, value 0
    have hb1 : (iv != 0) = false := by simp [hI]
    have hb2 : (fv != 0) = false := by simp [hF]
    have hW : w.WriteBitCoord f =
        { w with
          data := (writeBitsFn (writeBitsFn w.data w.iCurBit 0 1) (w.iCurBit + 1) 0 1),
          iCurBit := w.iCurBit + 2 } := by
      unfold bf_write.WriteBitCoord
      rw [← hiv, ← hfv]
      simp only [hb1, hb2, Bool.or_self, Bool.false_eq_true, if_false]
      rw [WriteOneBit_eq w false hov (by omega),
        WriteOneBit_eq _ false (by exact hov)
          (by show w.iCurBit + 1 + 1 ≤ w.nDataBits; omega)]
      rfl
    have he1 : r.ReadOneBit = (0, { r with iCurBit := r.iCurBit + 1 }) := by
      unfold bf_read.ReadOneBit
      rw [ReadUBitLong_eq r 1 hrov (by omega)]
      rw [hrdata, hW, hrcur]
      show (bitsToNat (writeBitsFn (writeBitsFn w.data w.iCurBit 0 1)
        (w.iCurBit + 1) 0 1) w.iCurBit 1, _) = _
      rw [bitsToNat_frame_le _ _ _ _ _ _ (by omega), bitsToNat_writeBitsFn]
      rfl
    have he2 : ({ r with iCurBit := r.iCurBit + 1 } : bf_read).ReadOneBit =
        (0, { r with iCurBit := r.iCurBit + 1 + 1 }) := by
      unfold bf_read.ReadOneBit
      rw [ReadUBitLong_eq _ 1 (by exact hrov)
        (by show r.iCurBit + 1 + 1 ≤ r.nDataBits; omega)]
      show (bitsToNat r.data (r.iCurBit + 1) 1, _) = _
      rw [hrdata, hW, hrcur]
      show (bitsToNat (writeBitsFn (writeBitsFn w.data w.iCurBit 0 1)
        (w.iCurBit + 1) 0 1) (w.iCurBit + 1) 1, _) = _
      rw [bitsToNat_writeBitsFn]
      rfl
    unfold bf_read.ReadBitCoord
    rw [he1]
    simp only [he2]
    rw [if_neg (by simp)]
    unfold coordQuant
    rw [← hiv, ← hfv, if_pos ⟨hI, hF⟩]
  · -- fractional part only: flag bits 0,1 then sign and 5 fraction bits
    have hb1 : (iv != 0) = false := by simp [hI]
    have hb2 : (fv != 0) = true := by simp [hF]
    have hfv5 : fv < 2 ^ 5 := by omega
    have hW : w.WriteBitCoord f =
        { w with
          data := (writeBitsFn (writeBitsFn (writeBitsFn (writeBitsFn w.data w.iCurBit 0 1) (w.iCurBit + 1) 1 1) (w.iCurBit + 2) (if decide (f ≤ -COORD_RESOLUTION) then 1 else 0) 1) (w.iCurBit + 3) fv 5),
          iCurBit := w.iCurBit + 8 } := by
      unfold bf_write.WriteBitCoord
      rw [← hiv, ← hfv]
      simp only [hb1, hb2, Bool.false_or, Bool.false_eq_true, if_false,
        if_true, COORD_FRACTIONAL_BITS, COORD_INTEGER_BITS]
      rw [WriteOneBit_eq w false hov (by omega),
        WriteOneBit_eq _ true (by exact hov)
          (by show w.iCurBit + 1 + 1 ≤ w.nDataBits; omega),
        WriteOneBit_eq _ (decide (f ≤ -COORD_RESOLUTION)) (by exact hov)
          (by show w.iCurBit + 2 + 1 ≤ w.nDataBits; omega),
        WriteUBitLong_eq _ fv 5 (by exact hov)
          (by show w.iCurBit + 3 + 5 ≤ w.nDataBits; omega)]
      rfl
    have he1 : r.ReadOneBit = (0, { r with iCurBit := r.iCurBit + 1 }) := by
      unfold bf_read.ReadOneBit
      rw [ReadUBitLong_eq r 1 hrov (by omega)]
      rw [hrdata, hW, hrcur]
      show (bitsToNat _ w.iCurBit 1, _) = _
      rw [bitsToNat_frame_le _ _ _ _ _ _ (by omega),
        bitsToNat_frame_le _ _ _ _ _ _ (by omega),
        bitsToNat_frame_le _ _ _ _ _ _ (by omega), bitsToNat_writeBitsFn]
      rfl
    have he2 : ({ r with iCurBit := r.iCurBit + 1 } : bf_read).ReadOneBit =
        (1, { r with iCurBit := r.iCurBit + 2 }) := by
      unfold bf_read.ReadOneBit
      rw [ReadUBitLong_eq _ 1 (by exact hrov)
        (by show r.iCurBit + 1 + 1 ≤ r.nDataBits; omega)]
      show (bitsToNat r.data (r.iCurBit + 1) 1, _) = _
      rw [hrdata, hW, hrcur]
      show (bitsToNat _ (w.iCurBit + 1) 1, _) = _
      rw [bitsToNat_frame_le _ _ _ _ _ _ (by omega),
        bitsToNat_frame_le _ _ _ _ _ _ (by omega), bitsToNat_writeBitsFn]
      rfl
    have he3 : ({ r with iCurBit := r.iCurBit + 2 } : bf_read).ReadOneBit =
        ((if decide (f ≤ -COORD_RESOLUTION) then 1 else 0),
         { r with iCurBit := r.iCurBit + 3 }) := by
      unfold bf_read.ReadOneBit
      rw [ReadUBitLong_eq _ 1 (by exact hrov)
        (by show r.iCurBit + 2 + 1 ≤ r.nDataBits; omega)]
      show (bitsToNat r.data (r.iCurBit + 2) 1, _) = _
      rw [hrdata, hW, hrcur]
      show (bitsToNat _ (w.iCurBit + 2) 1, _) = _
      rw [bitsToNat_frame_le _ _ _ _ _ _ (by omega), bitsToNat_writeBitsFn]
      cases hd : decide (f ≤ -COORD_RESOLUTION) <;> rfl
    have he5 : ({ r with iCurBit := r.iCurBit + 3 } : bf_read).ReadUBitLong 5 =
        (fv, { r with iCurBit := r.iCurBit + 8 }) := by
      rw [ReadUBitLong_eq _ 5 (by exact hrov)
        (by show r.iCurBit + 3 + 5 ≤ r.nDataBits; omega)]
      show (bitsToNat r.data (r.iCurBit + 3) 5, _) = _
      rw [hrdata, hW, hrcur]
      show (bitsToNat _ (w.iCurBit + 3) 5, _) = _
      rw [bitsToNat_writeBitsFn, Nat.mod_eq_of_lt hfv5]
    unfold bf_read.ReadBitCoord
    rw [he1]
    simp only [he2, he3, he5, COORD_FRACTIONAL_BITS]
    rw [if_pos (show (0 : Nat) ≠ 0 ∨ (1 : Nat) ≠ 0 by norm_num)]
    rw [if_neg (show ¬(0 : Nat) ≠ 0 by norm_num)]
    rw [if_pos (show (1 : Nat) ≠ 0 by norm_num)]
    dsimp only
    rw [he5]
    dsimp only
    unfold coordQuant
    rw [← hiv, ← hfv]
    rw [if_neg (show ¬(iv = 0 ∧ fv = 0) by simp [hF])]
    rw [hI]
    by_cases hsb : f ≤ -COORD_RESOLUTION
    · rw [if_pos hsb]
      rw [if_pos (show (if decide (f ≤ -COORD_RESOLUTION) = true then 1 else 0 : Nat) ≠ 0 by
        simp [hsb])]
      push_cast
      ring
    · rw [if_neg hsb]
      rw [if_neg (show ¬(if decide (f ≤ -COORD_RESOLUTION) = true then 1 else 0 : Nat) ≠ 0 by
        simp [hsb])]
      push_cast
      ring
  · -- integer part only: flag bits 1,0 then sign and 14 integer bits
    have hb1 : (iv != 0) = true := by simp [hI]
    have hb2 : (fv != 0) = false := by simp [hF]
    have hintlt : (iv - 1).toNat < 2 ^ 14 := by omega
    have hW : w.WriteBitCoord f =
        { w with
          data := (writeBitsFn (writeBitsFn (writeBitsFn (writeBitsFn w.data w.iCurBit 1 1) (w.iCurBit + 1) 0 1) (w.iCurBit + 2) (if decide (f ≤ -COORD_RESOLUTION) then 1 else 0) 1) (w.iCurBit + 3) (iv - 1).toNat 14),
          iCurBit := w.iCurBit + 17 } := by
      unfold bf_write.WriteBitCoord
      rw [← hiv, ← hfv]
      simp only [hb1, hb2, Bool.or_false, Bool.false_eq_true, if_false,
        if_true, COORD_FRACTIONAL_BITS, COORD_INTEGER_BITS]
      rw [WriteOneBit_eq w true hov (by omega),
        WriteOneBit_eq _ false (by exact hov)
          (by show w.iCurBit + 1 + 1 ≤ w.nDataBits; omega),
        WriteOneBit_eq _ (decide (f ≤ -COORD_RESOLUTION)) (by exact hov)
          (by show w.iCurBit + 2 + 1 ≤ w.nDataBits; omega),
        WriteUBitLong_eq _ (iv - 1).toNat 14 (by exact hov)
          (by show w.iCurBit + 3 + 14 ≤ w.nDataBits; omega)]
      rfl
    have he1 : r.ReadOneBit = (1, { r with iCurBit := r.iCurBit + 1 }) := by
      unfold bf_read.ReadOneBit
      rw [ReadUBitLong_eq r 1 hrov (by omega)]
      rw [hrdata, hW, hrcur]
      show (bitsToNat _ w.iCurBit 1, _) = _
      rw [bitsToNat_frame_le _ _ _ _ _ _ (by omega),
        bitsToNat_frame_le _ _ _ _ _ _ (by omega),
        bitsToNat_frame_le _ _ _ _ _ _ (by omega), bitsToNat_writeBitsFn]
      rfl
    have he2 : ({ r with iCurBit := r.iCurBit + 1 } : bf_read).ReadOneBit =
        (0, { r with iCurBit := r.iCurBit + 2 }) := by
      unfold bf_read.ReadOneBit
      rw [ReadUBitLong_eq _ 1 (by exact hrov)
        (by show r.iCurBit + 1 + 1 ≤ r.nDataBits; omega)]
      show (bitsToNat r.data (r.iCurBit + 1) 1, _) = _
      rw [hrdata, hW, hrcur]
      show (bitsToNat _ (w.iCurBit + 1) 1, _) = _
      rw [bitsToNat_frame_le _ _ _ _ _ _ (by omega),
        bitsToNat_frame_le _ _ _ _ _ _ (by omega), bitsToNat_writeBitsFn]
      rfl
    have he3 : ({ r with iCurBit := r.iCurBit + 2 } : bf_read).ReadOneBit =
        ((if decide (f ≤ -COORD_RESOLUTION) then 1 else 0),
         { r with iCurBit := r.iCurBit + 3 }) := by
      unfold bf_read.ReadOneBit
      rw [ReadUBitLong_eq _ 1 (by exact hrov)
        (by show r.iCurBit + 2 + 1 ≤ r.nDataBits; omega)]
      show (bitsToNat r.data (r.iCurBit + 2) 1, _) = _
      rw [hrdata, hW, hrcur]
      show (bitsToNat _ (w.iCurBit + 2) 1, _) = _
      rw [bitsToNat_frame_le _ _ _ _ _ _ (by omega), bitsToNat_writeBitsFn]
      cases hd : decide (f ≤ -COORD_RESOLUTION) <;> rfl
    have he4 : ({ r with iCurBit := r.iCurBit + 3 } : bf_read).ReadUBitLong 14 =
        ((iv - 1).toNat, { r with iCurBit := r.iCurBit + 17 }) := by
      rw [ReadUBitLong_eq _ 14 (by exact hrov)
        (by show r.iCurBit + 3 + 14 ≤ r.nDataBits; omega)]
      show (bitsToNat r.data (r.iCurBit + 3) 14, _) = _
      rw [hrdata, hW, hrcur]
      show (bitsToNat _ (w.iCurBit + 3) 14, _) = _
      rw [bitsToNat_writeBitsFn, Nat.mod_eq_of_lt hintlt]
    unfold bf_read.ReadBitCoord
    rw [he1]
    simp only [he2, he3, COORD_INTEGER_BITS, COORD_FRACTIONAL_BITS]
    rw [if_pos (show (1 : Nat) ≠ 0 ∨ (0 : Nat) ≠ 0 by norm_num)]
    rw [if_pos (show (1 : Nat) ≠ 0 by norm_num)]
    rw [if_neg (show ¬(0 : Nat) ≠ 0 by norm_num)]
    dsimp only
    rw [he4]
    dsimp only
    unfold coordQuant
    rw [← hiv, ← hfv]
    rw [if_neg (show ¬(iv = 0 ∧ fv = 0) by simp [hI])]
    rw [hF]
    have hge1 : (0 : Int) ≤ iv - 1 := by omega
    have hQ : (((iv - 1).toNat : ℕ) : ℚ) = (iv : ℚ) - 1 := by
      have h := Int.toNat_of_nonneg hge1
      exact_mod_cast congrArg (Int.cast : ℤ → ℚ) h
    by_cases hsb : f ≤ -COORD_RESOLUTION
    · rw [if_pos hsb]
      rw [if_pos (show (if decide (f ≤ -COORD_RESOLUTION) then 1 else 0 : Nat) ≠ 0 by
        simp [hsb])]
      push_cast [hQ]
      ring
    · rw [if_neg hsb]
      rw [if_neg (show ¬(if decide (f ≤ -COORD_RESOLUTION) then 1 else 0 : Nat) ≠ 0 by
        simp [hsb])]
      push_cast [hQ]
      ring
  · -- integer and fractional parts: flags 1,1 then sign, 14 + 5 bits
    have hb1 : (iv != 0) = true := by simp [hI]
    have hb2 : (fv != 0) = true := by simp [hF]
    have hintlt : (iv - 1).toNat < 2 ^ 14 := by omega
    have hfv5 : fv < 2 ^ 5 := by omega
    have hW : w.WriteBitCoord f =
        { w with
          data := (writeBitsFn (writeBitsFn (writeBitsFn (writeBitsFn (writeBitsFn w.data w.iCurBit 1 1) (w.iCurBit + 1) 1 1) (w.iCurBit + 2) (if decide (f ≤ -COORD_RESOLUTION) then 1 else 0) 1) (w.iCurBit + 3) (iv - 1).toNat 14) (w.iCurBit + 17) fv 5),
          iCurBit := w.iCurBit + 22 } := by
      unfold bf_write.WriteBitCoord
      rw [← hiv, ← hfv]
      simp only [hb1, hb2, Bool.or_self, if_true,
        COORD_FRACTIONAL_BITS, COORD_INTEGER_BITS]
      rw [WriteOneBit_eq w true hov (by omega),
        WriteOneBit_eq _ true (by exact hov)
          (by show w.iCurBit + 1 + 1 ≤ w.nDataBits; omega),
        WriteOneBit_eq _ (decide (f ≤ -COORD_RESOLUTION)) (by exact hov)
          (by show w.iCurBit + 2 + 1 ≤ w.nDataBits; omega),
        WriteUBitLong_eq _ (iv - 1).toNat 14 (by exact hov)
          (by show w.iCurBit + 3 + 14 ≤ w.nDataBits; omega),
        WriteUBitLong_eq _ fv 5 (by exact hov)
          (by show w.iCurBit + 17 + 5 ≤ w.nDataBits; omega)]
      rfl
    have he1 : r.ReadOneBit = (1, { r with iCurBit := r.iCurBit + 1 }) := by
      unfold bf_read.ReadOneBit
      rw [ReadUBitLong_eq r 1 hrov (by omega)]
      rw [hrdata, hW, hrcur]
      show (bitsToNat _ w.iCurBit 1, _) = _
      rw [bitsToNat_frame_le _ _ _ _ _ _ (by omega),
        bitsToNat_frame_le _ _ _ _ _ _ (by omega),
        bitsToNat_frame_le _ _ _ _ _ _ (by omega),
        bitsToNat_frame_le _ _ _ _ _ _ (by omega), bitsToNat_writeBitsFn]
      rfl
    have he2 : ({ r with iCurBit := r.iCurBit + 1 } : bf_read).ReadOneBit =
        (1, { r with iCurBit := r.iCurBit + 2 }) := by
      unfold bf_read.ReadOneBit
      rw [ReadUBitLong_eq _ 1 (by exact hrov)
        (by show r.iCurBit + 1 + 1 ≤ r.nDataBits; omega)]
      show (bitsToNat r.data (r.iCurBit + 1) 1, _) = _
      rw [hrdata, hW, hrcur]
      show (bitsToNat _ (w.iCurBit + 1) 1, _) = _
      rw [bitsToNat_frame_le _ _ _ _ _ _ (by omega),
        bitsToNat_frame_le _ _ _ _ _ _ (by omega),
        bitsToNat_frame_le _ _ _ _ _ _ (by omega), bitsToNat_writeBitsFn]
      rfl
    have he3 : ({ r with iCurBit := r.iCurBit + 2 } : bf_read).ReadOneBit =
        ((if decide (f ≤ -COORD_RESOLUTION) then 1 else 0),
         { r with iCurBit := r.iCurBit + 3 }) := by
      unfold bf_read.ReadOneBit
      rw [ReadUBitLong_eq _ 1 (by exact hrov)
        (by show r.iCurBit + 2 + 1 ≤ r.nDataBits; omega)]
      show (bitsToNat r.data (r.iCurBit + 2) 1, _) = _
      rw [hrdata, hW, hrcur]
      show (bitsToNat _ (w.iCurBit + 2) 1, _) = _
      rw [bitsToNat_frame_le _ _ _ _ _ _ (by omega),
        bitsToNat_frame_le _ _ _ _ _ _ (by omega), bitsToNat_writeBitsFn]
      cases hd : decide (f ≤ -COORD_RESOLUTION) <;> rfl
    have he4 : ({ r with iCurBit := r.iCurBit + 3 } : bf_read).ReadUBitLong 14 =
        ((iv - 1).toNat, { r with iCurBit := r.iCurBit + 17 }) := by
      rw [ReadUBitLong_eq _ 14 (by exact hrov)
        (by show r.iCurBit + 3 + 14 ≤ r.nDataBits; omega)]
      show (bitsToNat r.data (r.iCurBit + 3) 14, _) = _
      rw [hrdata, hW, hrcur]
      show (bitsToNat _ (w.iCurBit + 3) 14, _) = _
      rw [bitsToNat_frame_le _ _ _ _ _ _ (by omega),
        bitsToNat_writeBitsFn, Nat.mod_eq_of_lt hintlt]
    have he5 : ({ r with iCurBit := r.iCurBit + 17 } : bf_read).ReadUBitLong 5 =
        (fv, { r with iCurBit := r.iCurBit + 22 }) := by
      rw [ReadUBitLong_eq _ 5 (by exact hrov)
        (by show r.iCurBit + 17 + 5 ≤ r.nDataBits; omega)]
      show (bitsToNat r.data (r.iCurBit + 17) 5, _) = _
      rw [hrdata, hW, hrcur]
      show (bitsToNat _ (w.iCurBit + 17) 5, _) = _
      rw [bitsToNat_writeBitsFn, Nat.mod_eq_of_lt hfv5]
    unfold bf_read.ReadBitCoord
    rw [he1]
    simp only [he2, he3, COORD_INTEGER_BITS, COORD_FRACTIONAL_BITS]
    rw [if_pos (show (1 : Nat) ≠ 0 ∨ (1 : Nat) ≠ 0 by norm_num)]
    rw [if_pos (show (1 : Nat) ≠ 0 by norm_num)]
    rw [if_pos (show (1 : Nat) ≠ 0 by norm_num)]
    dsimp only
    rw [he4]
    dsimp only
    rw [he5]
    dsimp only
    unfold coordQuant
    rw [← hiv, ← hfv]
    rw [if_neg (show ¬(iv = 0 ∧ fv = 0) by simp [hI])]
    have hge1 : (0 : Int) ≤ iv - 1 := by omega
    have hQ : (((iv - 1).toNat : ℕ) : ℚ) = (iv : ℚ) - 1 := by
      have h := Int.toNat_of_nonneg hge1
      exact_mod_cast congrArg (Int.cast : ℤ → ℚ) h
    by_cases hsb : f ≤ -COORD_RESOLUTION
    · rw [if_pos hsb]
      rw [if_pos (show (if decide (f ≤ -COORD_RESOLUTION) then 1 else 0 : Nat) ≠ 0 by
        simp [hsb])]
      push_cast [hQ]
      ring
    · rw [if_neg hsb]
      rw [if_neg (show ¬(if decide (f ≤ -COORD_RESOLUTION) then 1 else 0 : Nat) ≠ 0 by
        simp [hsb])]
      push_cast [hQ]
      ring

/-- **C9.**  For the representative inputs — `0.0` (and `-0.0`, identical
in the rational model and identically encoded by the float code), `±12.5`,
`16384.5` (near the 14-bit integer-part limit), the smallest nonzero
fractional step `1/32`, and the off-grid value `3/64` — the value read
back by `ReadBitCoord` from the bits produced by `WriteBitCoord` is within
one fractional quantization step (`COORD_RESOLUTION = 1/32`) of the input,
and `0.0` round-trips to exactly `0.0`. -/
theorem c9_coord_roundtrip_representatives :
    coordRoundTrip 0 = 0 ∧
    ratAbs (coordRoundTrip (25 / 2) - 25 / 2) ≤ COORD_RESOLUTION ∧
    ratAbs (coordRoundTrip (-(25 / 2)) - -(25 / 2)) ≤ COORD_RESOLUTION ∧
    ratAbs (coordRoundTrip (32769 / 2) - 32769 / 2) ≤ COORD_RESOLUTION ∧
    ratAbs (coordRoundTrip (1 / 32) - 1 / 32) ≤ COORD_RESOLUTION ∧
    ratAbs (coordRoundTrip (3 / 64) - 3 / 64) ≤ COORD_RESOLUTION := by
  have key : ∀ f : ℚ, cppTrunc (ratAbs f) ≤ 16384 →
      coordRoundTrip f = coordQuant f := by
    intro f hint
    unfold coordRoundTrip
    exact coord_roundtrip_general w64 f rfl (by decide) hint
      (bf_read.StartReading (w64.WriteBitCoord f).data 8 0 none) rfl rfl rfl
      (by show w64.iCurBit + 22 ≤ 64; decide)
  refine ⟨?_, ?_, ?_, ?_, ?_, ?_⟩ <;>
    rw [key _ (by norm_num [cppTrunc, ratAbs])] <;>
    norm_num [coordQuant, cppTrunc, ratAbs, COORD_DENOMINATOR,
      COORD_FRACTIONAL_BITS, COORD_RESOLUTION, Nat.shiftLeft_eq,
      show (400 : Nat) &&& 31 = 16 by decide,
      show (524304 : Nat) &&& 31 = 16 by decide,
      show (1 : Nat) &&& 31 = 1 by decide]

/-! ## Claim C8: `ReadBitVec3Normal` Z derivation

The float computation is modelled over exact fields: the decoded X/Y
components are rationals and `sqrtf` is the real square root. -/

/-- Modelled from the spec: `NORMAL_FRACTIONAL_BITS` (coordsize.h, absent
from src): the normal fractional width, a fixed protocol constant; taken
as 11 (the conventional value — no claim depends on it). -/
def NORMAL_FRACTIONAL_BITS : Nat := 11

/-- Modelled from the spec: `NORMAL_RESOLUTION`, the normal quantization
step (spec section 6: a power-of-two denominator). -/
def NORMAL_RESOLUTION : ℚ := 1 / 2 ^ NORMAL_FRACTIONAL_BITS

/-- `bf_read::ReadBitNormal` (bitbuf.cpp lines 1051-1059). -/
def bf_read.ReadBitNormal (r : bf_read) : ℚ × bf_read :=
  let p1 := r.ReadOneBit
  let p2 := p1.2.ReadUBitLong NORMAL_FRACTIONAL_BITS
  let value : ℚ := (p2.1 : ℚ) * NORMAL_RESOLUTION
  (if p1.1 ≠ 0 then -value else value, p2.2)

/-- The bit-consuming part of `bf_read::ReadBitVec3Normal` (bitbuf.cpp
lines 1061-1073): the two presence flags, the optional X and Y normals,
and the explicit Z sign bit. -/
def bf_read.ReadBitVec3NormalRaw (r : bf_read) : (ℚ × ℚ × Bool) × bf_read :=
  let px := r.ReadOneBit
  let py := px.2.ReadOneBit
  let fx := if px.1 ≠ 0 then py.2.ReadBitNormal else ((0 : ℚ), py.2)
  let fy := if py.1 ≠ 0 then fx.2.ReadBitNormal else ((0 : ℚ), fx.2)
  let pz := fy.2.ReadOneBit
  ((fx.1, fy.1, pz.1 != 0), pz.2)

/-- `bf_read::ReadBitVec3Normal` (bitbuf.cpp lines 1061-1078): the Z
component is not decoded from the stream; it is derived from the
unit-length constraint (`sqrt(1 - x*x - y*y)` when `x*x + y*y < 1`, else
0), negated when the explicit sign bit is set. -/
noncomputable def bf_read.ReadBitVec3Normal (r : bf_read) :
    (ℝ × ℝ × ℝ) × bf_read :=
  let q := r.ReadBitVec3NormalRaw
  let x : ℝ := (q.1.1 : ℚ)
  let y : ℝ := (q.1.2.1 : ℚ)
  let sumSq : ℝ := x * x + y * y
  let z0 : ℝ := if sumSq < 1 then Real.sqrt (1 - sumSq) else 0
  ((x, y, if q.1.2.2 then -z0 else z0), q.2)

/-- **C8.**  For decoded components `x`, `y` with `x*x + y*y < 1` the
returned Z equals `sqrt(1 - x*x - y*y)` with the sign taken from the
explicit sign bit read from the stream; when `x*x + y*y ≥ 1` the returned
Z is 0.  The X and Y components are the decoded normals and the final
state is the raw reader state. -/
theorem c8_vec3normal_z_derivation (r : bf_read) (x y : ℚ) (zneg : Bool)
    (r' : bf_read) (h : r.ReadBitVec3NormalRaw = ((x, y, zneg), r')) :
    r.ReadBitVec3Normal.1.1 = (x : ℝ) ∧
    r.ReadBitVec3Normal.1.2.1 = (y : ℝ) ∧
    ((x : ℝ) * x + (y : ℝ) * y < 1 →
      r.ReadBitVec3Normal.1.2.2 = (if zneg then -1 else 1) *
        Real.sqrt (1 - ((x : ℝ) * x + (y : ℝ) * y))) ∧
    ((1 : ℝ) ≤ (x : ℝ) * x + (y : ℝ) * y →
      r.ReadBitVec3Normal.1.2.2 = 0) ∧
    r.ReadBitVec3Normal.2 = r' := by
  unfold bf_read.ReadBitVec3Normal
  rw [h]
  dsimp only
  refine ⟨rfl, rfl, ?_, ?_, rfl⟩
  · intro hlt
    rw [if_pos hlt]
    cases zneg <;> simp
  · intro hge
    rw [if_neg (not_lt.mpr hge)]
    cases zneg <;> simp

/-- An 8-valid-bit reader over the all-zero buffer: both presence flags
and the Z sign bit read as 0. -/
def c8r : bf_read := bf_read.StartReading zeroBuf 1 0 none

/-- Witness for C8 at a concrete stream (x = y = 0, sign bit clear). -/
theorem c8_vec3normal_z_derivation_witness :
    ((0 : ℚ) : ℝ) * ((0 : ℚ) : ℝ) + ((0 : ℚ) : ℝ) * ((0 : ℚ) : ℝ) < 1 ∧
    c8r.ReadBitVec3Normal.1.2.2 = (if false then -1 else 1) *
      Real.sqrt (1 - (((0 : ℚ) : ℝ) * ((0 : ℚ) : ℝ) +
        ((0 : ℚ) : ℝ) * ((0 : ℚ) : ℝ))) :=
  ⟨by norm_num,
   (c8_vec3normal_z_derivation c8r 0 0 false _ rfl).2.2.1 (by norm_num)⟩

/-! ## Claim C7: `ReadString` -/

/-- The 8-bit signed character stored at bit position `pos`. -/
def charAt (f : Nat → Bool) (pos : Nat) : Int :=
  let u := bitsToNat f pos 8
  if 2 ^ 7 ≤ u then (u : Int) - 2 ^ 8 else u

theorem ReadChar_eq (r : bf_read) (hov : r.bOverflow = false)
    (hfit : r.iCurBit + 8 ≤ r.nDataBits) :
    r.ReadChar = (charAt r.data r.iCurBit,
      { r with iCurBit := r.iCurBit + 8 }) := by
  unfold bf_read.ReadChar bf_read.ReadSBitLong charAt
  rw [ReadUBitLong_eq r 8 hov hfit]
  dsimp only
  norm_num [Nat.shiftLeft_eq]
  split
  · push_cast
    ring_nf
  · rfl

/-- When `ReadChar` returns a nonzero value the read was in range and the
cursor advanced by exactly 8 bits; everything else is unchanged. -/
theorem ReadChar_ne_zero_advance (r : bf_read) (h : r.ReadChar.1 ≠ 0) :
    r.ReadChar.2.nDataBits = r.nDataBits ∧
    r.ReadChar.2.iCurBit = r.iCurBit + 8 ∧
    r.iCurBit + 8 ≤ r.nDataBits ∧
    r.ReadChar.2.bOverflow = r.bOverflow ∧
    r.ReadChar.2.data = r.data := by
  by_cases hov : r.bOverflow = true
  · exfalso
    apply h
    unfold bf_read.ReadChar bf_read.ReadSBitLong bf_read.ReadUBitLong
    rw [hov]
    norm_num [Nat.shiftLeft_eq]
  · rw [Bool.not_eq_true] at hov
    by_cases hfit : r.iCurBit + 8 ≤ r.nDataBits
    · rw [ReadChar_eq r hov hfit]
      exact ⟨rfl, rfl, hfit, rfl, rfl⟩
    · exfalso
      apply h
      unfold bf_read.ReadChar bf_read.ReadSBitLong bf_read.ReadUBitLong
      rw [if_neg (by simp [hov]), if_pos (by omega)]
      norm_num [Nat.shiftLeft_eq]

/-- The loop of `bf_read::ReadString` (bitbuf.cpp lines 1118-1134):
consumes characters until a zero (or, when `bLine`, a newline), storing
into `pStr` only while fewer than `maxLen-1` characters are stored, and
raising `bTooSmall` for every dropped character.  Termination: a nonzero
character implies the cursor advanced (the end of the valid data yields
the terminating 0 via the overflow path). -/
def bf_read.ReadStringLoop (maxLen : Nat) (bLine : Bool) (r : bf_read)
    (acc : List Int) (bTooSmall : Bool) : List Int × Bool × bf_read :=
  if hz : r.ReadChar.1 = 0 then (acc, bTooSmall, r.ReadChar.2)
  else if bLine = true ∧ r.ReadChar.1 = 10 then (acc, bTooSmall, r.ReadChar.2)
  else if acc.length < maxLen - 1 then
    bf_read.ReadStringLoop maxLen bLine r.ReadChar.2 (acc ++ [r.ReadChar.1]) bTooSmall
  else
    bf_read.ReadStringLoop maxLen bLine r.ReadChar.2 acc true
termination_by r.nDataBits - r.iCurBit
decreasing_by
  all_goals
    have := ReadChar_ne_zero_advance r hz
    omega

/-- `bf_read::ReadString` (bitbuf.cpp lines 1113-1140): returns the
written character cells of `pStr` (the stored characters followed by the
unconditional terminating 0 of line 1136), the `bTooSmall` flag, the
return value `!IsOverflowed() && !bTooSmall`, and the final reader. -/
def bf_read.ReadString (r : bf_read) (maxLen : Nat) (bLine : Bool) :
    List Int × Bool × Bool × bf_read :=
  let res := bf_read.ReadStringLoop maxLen bLine r [] false
  (res.1 ++ [0], res.2.1, (!res.2.2.bOverflow && !res.2.1), res.2.2)

/-- Characterization of the `ReadString` loop on a stream holding the
characters `cs` (none terminating) followed by terminator `t`. -/
theorem ReadStringLoop_spec (maxLen : Nat) (bLine : Bool) :
    ∀ (cs : List Int) (t : Int) (r : bf_read) (acc : List Int) (ts : Bool),
    r.bOverflow = false →
    r.iCurBit + 8 * (cs.length + 1) ≤ r.nDataBits →
    (∀ i (hi : i < cs.length),
      charAt r.data (r.iCurBit + 8 * i) = cs.get ⟨i, hi⟩ ∧
      cs.get ⟨i, hi⟩ ≠ 0 ∧ (bLine = true → cs.get ⟨i, hi⟩ ≠ 10)) →
    charAt r.data (r.iCurBit + 8 * cs.length) = t →
    (t = 0 ∨ (bLine = true ∧ t = 10)) →
    bf_read.ReadStringLoop maxLen bLine r acc ts =
      (acc ++ cs.take (maxLen - 1 - acc.length),
       ts || decide (maxLen - 1 - acc.length < cs.length),
       { r with iCurBit := r.iCurBit + 8 * (cs.length + 1) }) := by
  intro cs
  induction cs with
  | nil =>
    intro t r acc ts hov hfit _hchars hterm ht
    have hrc : r.ReadChar = (t, { r with iCurBit := r.iCurBit + 8 }) := by
      rw [ReadChar_eq r hov (by simp at hfit; omega)]
      rw [show r.iCurBit = r.iCurBit + 8 * ([] : List Int).length by simp,
        hterm]
    unfold bf_read.ReadStringLoop
    rcases ht with ht0 | ⟨hbl, ht10⟩
    · rw [dif_pos (by rw [hrc, ht0])]
      rw [hrc]
      simp
    · by_cases ht0 : t = 0
      · rw [dif_pos (by rw [hrc, ht0])]
        rw [hrc]
        simp
      · rw [dif_neg (by rw [hrc]; exact ht0),
          if_pos (by rw [hrc]; exact ⟨hbl, ht10⟩)]
        rw [hrc]
        simp
  | cons c cs ih =>
    intro t r acc ts hov hfit hchars hterm ht
    have hfit8 : r.iCurBit + 8 ≤ r.nDataBits := by
      simp only [List.length_cons] at hfit
      omega
    have hc := hchars 0 (by simp)
    simp only [List.get] at hc
    have hrc : r.ReadChar = (c, { r with iCurBit := r.iCurBit + 8 }) := by
      rw [ReadChar_eq r hov hfit8]
      rw [show r.iCurBit + 8 * 0 = r.iCurBit by ring] at hc
      rw [hc.1]
    have hargs : ∀ i (hi : i < cs.length),
        charAt r.data (r.iCurBit + 8 + 8 * i) = cs.get ⟨i, hi⟩ ∧
        cs.get ⟨i, hi⟩ ≠ 0 ∧ (bLine = true → cs.get ⟨i, hi⟩ ≠ 10) := by
      intro i hi
      have := hchars (i + 1) (by simp; omega)
      rw [show r.iCurBit + 8 * (i + 1) = r.iCurBit + 8 + 8 * i by ring] at this
      simpa using this
    have hterm' : charAt r.data (r.iCurBit + 8 + 8 * cs.length) = t := by
      rw [show r.iCurBit + 8 + 8 * cs.length = r.iCurBit + 8 * ((c :: cs).length) by
        simp; ring]
      exact hterm
    unfold bf_read.ReadStringLoop
    rw [dif_neg (by rw [hrc]; exact hc.2.1)]
    rw [if_neg (by rw [hrc]; intro hh; exact hc.2.2 hh.1 hh.2)]
    by_cases hlen : acc.length < maxLen - 1
    · rw [if_pos hlen, hrc]
      rw [ih t { r with iCurBit := r.iCurBit + 8 } (acc ++ [c]) ts hov
        (by simp only [List.length_cons] at hfit; simp; omega) hargs hterm' ht]
      simp only [List.length_append, List.length_singleton]
      have e1 : acc ++ [c] ++ List.take (maxLen - 1 - (acc.length + 1)) cs =
          acc ++ List.take (maxLen - 1 - acc.length) (c :: cs) := by
        rw [show maxLen - 1 - acc.length = (maxLen - 1 - (acc.length + 1)) + 1
          from by omega, List.take_succ_cons, List.append_assoc,
          List.singleton_append]
      have e2 : decide (maxLen - 1 - (acc.length + 1) < cs.length) =
          decide (maxLen - 1 - acc.length < (c :: cs).length) := by
        rw [decide_eq_decide]
        simp only [List.length_cons]
        omega
      have e3 : r.iCurBit + 8 + 8 * (cs.length + 1) =
          r.iCurBit + 8 * ((c :: cs).length + 1) := by
        simp only [List.length_cons]
        ring
      rw [e1, e2, e3]
    · rw [if_neg hlen, hrc]
      rw [ih t { r with iCurBit := r.iCurBit + 8 } acc true hov
        (by simp only [List.length_cons] at hfit; simp; omega) hargs hterm' ht]
      have hml : maxLen - 1 - acc.length = 0 := by omega
      have e1 : acc ++ List.take (maxLen - 1 - acc.length) cs =
          acc ++ List.take (maxLen - 1 - acc.length) (c :: cs) := by
        rw [hml]
        simp
      have e2 : (true : Bool) = (ts || decide (maxLen - 1 - acc.length < (c :: cs).length)) := by
        rw [hml]
        simp
      have e3 : r.iCurBit + 8 + 8 * (cs.length + 1) =
          r.iCurBit + 8 * ((c :: cs).length + 1) := by
        simp only [List.length_cons]
        ring
      simp only [Bool.true_or]
      rw [e2, e1, e3]

/-- **C7.**  On a stream holding the characters `cs` (none of which is a
terminator) followed by a terminating zero byte — or a newline when
`bLine` is requested — `ReadString` stores characters until the
terminator or until `maxLen-1` characters have been stored, always
null-terminates the destination, raises `bTooSmall` exactly when a
character had to be dropped (`maxLen-1 < cs.length`), and returns true
exactly when no truncation occurred (the stream did not overflow here, so
the return value reports truncation); in particular a string of exactly
`maxLen-1` characters plus terminator reports no truncation.  The cursor
consumes the characters and the terminator. -/
theorem c7_readstring_contract (r : bf_read) (maxLen : Nat) (bLine : Bool)
    (cs : List Int) (t : Int)
    (hov : r.bOverflow = false)
    (hfit : r.iCurBit + 8 * (cs.length + 1) ≤ r.nDataBits)
    (hchars : ∀ i (hi : i < cs.length),
      charAt r.data (r.iCurBit + 8 * i) = cs.get ⟨i, hi⟩ ∧
      cs.get ⟨i, hi⟩ ≠ 0 ∧ (bLine = true → cs.get ⟨i, hi⟩ ≠ 10))
    (hterm : charAt r.data (r.iCurBit + 8 * cs.length) = t)
    (ht : t = 0 ∨ (bLine = true ∧ t = 10)) :
    (r.ReadString maxLen bLine).1 = cs.take (maxLen - 1) ++ [0] ∧
    (r.ReadString maxLen bLine).2.1 = decide (maxLen - 1 < cs.length) ∧
    (r.ReadString maxLen bLine).2.2.1 = decide (cs.length ≤ maxLen - 1) ∧
    (r.ReadString maxLen bLine).2.2.2.bOverflow = false ∧
    (r.ReadString maxLen bLine).2.2.2.iCurBit = r.iCurBit + 8 * (cs.length + 1) := by
  unfold bf_read.ReadString
  rw [ReadStringLoop_spec maxLen bLine cs t r [] false hov hfit hchars hterm ht]
  dsimp only
  refine ⟨by simp, by simp, ?_, hov, rfl⟩
  simp only [List.nil_append, List.length_nil, Nat.sub_zero, Bool.false_or, hov,
    Bool.not_false, Bool.true_and]
  rw [show (decide (cs.length ≤ maxLen - 1)) = !(decide (maxLen - 1 < cs.length))
    from by rcases Nat.lt_or_ge (maxLen - 1) cs.length with h | h <;> simp [h] <;> omega]

/-- A buffer holding the bytes `'A' 'B' 0`. -/
def c7data : Nat → Bool := writeByteAt (writeByteAt zeroBuf 0 65) 1 66

/-- A reader over `c7data` with 32 valid bits. -/
def c7r : bf_read := bf_read.StartReading c7data 4 0 none

/-- Witness for C7: reading the two-character string into `maxLen = 3`
(exactly `maxLen-1` characters plus terminator) succeeds untruncated. -/
theorem c7_readstring_contract_witness :
    c7r.bOverflow = false ∧
    (c7r.ReadString 3 false).1 = [65, 66, 0] ∧
    (c7r.ReadString 3 false).2.1 = false ∧
    (c7r.ReadString 3 false).2.2.1 = true ∧
    (c7r.ReadString 3 false).2.2.2.iCurBit = 24 := by
  have h := c7_readstring_contract c7r 3 false [65, 66] 0 rfl (by decide)
    (by decide) (by decide) (Or.inl rfl)
  refine ⟨rfl, ?_, ?_, ?_, ?_⟩
  · rw [h.1]
    rfl
  · rw [h.2.1]
    rfl
  · rw [h.2.2.1]
    rfl
  · rw [h.2.2.2.2]
    decide

/-! ## Varints (claims C2, C3, C6) -/

/-- Modelled from the spec: `bitbuf::kMaxVarint32Bytes` (bitbuf.h, absent
from src): a 32-bit varint is at most 5 bytes. -/
def bitbuf.kMaxVarint32Bytes : Nat := 5

/-- Modelled from the spec: `bitbuf::kMaxVarintBytes` (bitbuf.h): a 64-bit
varint is at most 10 bytes. -/
def bitbuf.kMaxVarintBytes : Nat := 10

/-- The `uint64` bit pattern of a C `int64`/`uint64` expression value. -/
def toUInt64 (x : Int) : Nat := (x % (2 ^ 64 : Int)).toNat

/-- The C `int64` value of a `uint64` bit pattern. -/
def ofUInt64 (u : Nat) : Int :=
  if u < 2 ^ 63 then (u : Int) else (u : Int) - 2 ^ 64

/-- Modelled from the spec: `bitbuf::ZigZagEncode32` (bitbuf.h):
`(n << 1) ^ (n >> 31)` in 32-bit arithmetic (arithmetic right shift);
`n << 1` is `2 * n`. -/
def bitbuf.ZigZagEncode32 (n : Int) : Nat :=
  toUInt32 (2 * n) ^^^ toUInt32 (n >>> (31 : Nat))

/-- Modelled from the spec: `bitbuf::ZigZagDecode32` (bitbuf.h):
`(n >> 1) ^ -(n & 1)` in 32-bit arithmetic (unsigned negation). -/
def bitbuf.ZigZagDecode32 (z : Nat) : Int :=
  ofUInt32 ((z >>> 1) ^^^ ((2 ^ 32 - (z &&& 1)) % 2 ^ 32))

/-- Modelled from the spec: `bitbuf::ZigZagEncode64` (bitbuf.h). -/
def bitbuf.ZigZagEncode64 (n : Int) : Nat :=
  toUInt64 (2 * n) ^^^ toUInt64 (n >>> (63 : Nat))

/-- Modelled from the spec: `bitbuf::ZigZagDecode64` (bitbuf.h). -/
def bitbuf.ZigZagDecode64 (z : Nat) : Int :=
  ofUInt64 ((z >>> 1) ^^^ ((2 ^ 64 - (z &&& 1)) % 2 ^ 64))

/-- The per-byte fallback loop shared by `WriteVarInt32` and
`WriteVarInt64` (bitbuf.cpp lines 341-347 and 386-392): emit 7-bit groups
with the continuation bit until the value fits one group. -/
def bf_write.writeVarIntLoop (w : bf_write) (data : Nat) : bf_write :=
  if h : data > 0x7F then
    (w.WriteUBitLong ((data &&& 0x7F) ||| 0x80) 8).writeVarIntLoop (data >>> 7)
  else w.WriteUBitLong (data &&& 0x7F) 8
termination_by data
decreasing_by
  rw [Nat.shiftRight_eq_div_pow]
  exact Nat.div_lt_self (by omega) (by norm_num)

/-- `bf_write::WriteVarInt32` (bitbuf.cpp lines 290-348): byte-aligned
fast path writing the bytes directly (with continuation bits set on the
way down and the final byte's bit cleared), else the per-byte fallback. -/
def bf_write.WriteVarInt32 (w : bf_write) (data : Nat) : bf_write :=
  if w.iCurBit &&& 7 = 0 ∧ w.iCurBit + bitbuf.kMaxVarint32Bytes * 8 ≤ w.nDataBits then
    let p := w.iCurBit >>> 3
    let f0 := writeByteAt w.data p ((data ||| 0x80) % 256)
    if data ≥ 1 <<< 7 then
      let f1 := writeByteAt f0 (p + 1) (((data >>> 7) ||| 0x80) % 256)
      if data ≥ 1 <<< 14 then
        let f2 := writeByteAt f1 (p + 2) (((data >>> 14) ||| 0x80) % 256)
        if data ≥ 1 <<< 21 then
          let f3 := writeByteAt f2 (p + 3) (((data >>> 21) ||| 0x80) % 256)
          if data ≥ 1 <<< 28 then
            { w with data := writeByteAt f3 (p + 4) ((data >>> 28) % 256),
                     iCurBit := w.iCurBit + 5 * 8 }
          else { w with data := andByteAt f3 (p + 3),
                        iCurBit := w.iCurBit + 4 * 8 }
        else { w with data := andByteAt f2 (p + 2),
                      iCurBit := w.iCurBit + 3 * 8 }
      else { w with data := andByteAt f1 (p + 1),
                    iCurBit := w.iCurBit + 2 * 8 }
    else { w with data := andByteAt f0 p, iCurBit := w.iCurBit + 1 * 8 }
  else
    w.writeVarIntLoop data

/-- `bf_write::WriteVarInt64` (bitbuf.cpp lines 350-393): the fall-through
`switch` writes `target[size-1]` down to `target[0]`, each with the
continuation bit, then clears the final byte's continuation bit. -/
def bf_write.WriteVarInt64 (w : bf_write) (data : Nat) : bf_write :=
  if w.iCurBit &&& 7 = 0 ∧ w.iCurBit + bitbuf.kMaxVarintBytes * 8 ≤ w.nDataBits then
    let p := w.iCurBit >>> 3
    let part0 : Nat := data % 2 ^ 32
    let part1 : Nat := (data >>> 28) % 2 ^ 32
    let part2 : Nat := (data >>> 56) % 2 ^ 32
    let size : Nat :=
      if part2 = 0 then
        if part1 = 0 then (if part0 < 1 <<< 7 then 1 else 2)
        else (if part1 < 1 <<< 7 then 5
          else if part1 < 1 <<< 14 then 6
          else if part1 < 1 <<< 21 then 7 else 8)
      else (if part2 < 1 <<< 7 then 9 else 10)
    let f := w.data
    let f := if 10 ≤ size then writeByteAt f (p + 9) (((part2 >>> 7) ||| 0x80) % 256) else f
    let f := if 9 ≤ size then writeByteAt f (p + 8) ((part2 ||| 0x80) % 256) else f
    let f := if 8 ≤ size then writeByteAt f (p + 7) (((part1 >>> 21) ||| 0x80) % 256) else f
    let f := if 7 ≤ size then writeByteAt f (p + 6) (((part1 >>> 14) ||| 0x80) % 256) else f
    let f := if 6 ≤ size then writeByteAt f (p + 5) (((part1 >>> 7) ||| 0x80) % 256) else f
    let f := if 5 ≤ size then writeByteAt f (p + 4) ((part1 ||| 0x80) % 256) else f
    let f := if 4 ≤ size then writeByteAt f (p + 3) (((part0 >>> 21) ||| 0x80) % 256) else f
    let f := if 3 ≤ size then writeByteAt f (p + 2) (((part0 >>> 14) ||| 0x80) % 256) else f
    let f := if 2 ≤ size then writeByteAt f (p + 1) (((part0 >>> 7) ||| 0x80) % 256) else f
    let f := if 1 ≤ size then writeByteAt f p ((part0 ||| 0x80) % 256) else f
    let f := andByteAt f (p + (size - 1))
    { w with data := f, iCurBit := w.iCurBit + size * 8 }
  else
    w.writeVarIntLoop data

/-- `bf_write::WriteSignedVarInt32` (bitbuf.cpp lines 395-398). -/
def bf_write.WriteSignedVarInt32 (w : bf_write) (data : Int) : bf_write :=
  w.WriteVarInt32 (bitbuf.ZigZagEncode32 data)

/-- `bf_write::WriteSignedVarInt64` (bitbuf.cpp lines 400-403). -/
def bf_write.WriteSignedVarInt64 (w : bf_write) (data : Int) : bf_write :=
  w.WriteVarInt64 (bitbuf.ZigZagEncode64 data)

/-- `bf_write::ByteSizeVarInt32` (bitbuf.cpp lines 405-414), written as the
equivalent recursion on the shifted value. -/
def bf_write.ByteSizeVarInt32 (data : Nat) : Nat :=
  if h : data > 0x7F then bf_write.ByteSizeVarInt32 (data >>> 7) + 1 else 1
termination_by data
decreasing_by
  rw [Nat.shiftRight_eq_div_pow]
  exact Nat.div_lt_self (by omega) (by norm_num)

/-- `bf_write::ByteSizeVarInt64` (bitbuf.cpp lines 416-425). -/
def bf_write.ByteSizeVarInt64 (data : Nat) : Nat :=
  if h : data > 0x7F then bf_write.ByteSizeVarInt64 (data >>> 7) + 1 else 1
termination_by data
decreasing_by
  rw [Nat.shiftRight_eq_div_pow]
  exact Nat.div_lt_self (by omega) (by norm_num)

/-- The shared varint read loop (bitbuf.cpp lines 864-878 and 880-894):
accumulate 7-bit groups shifted into place (in `M`-modular machine
arithmetic, `M = 2^32` or `2^64`) while the continuation bit is set,
giving up once `cap` groups were read.  The source checks `count ==
kMaxVarintBytes`; since `count` starts at 0 and only increments, the
equivalent `≤` form is used. -/
def bf_read.readVarIntLoop (M cap : Nat) (r : bf_read) (result count : Nat) :
    Nat × bf_read :=
  if cap ≤ count then (result, r)
  else if (r.ReadUBitLong 8).1 &&& 0x80 ≠ 0 then
    bf_read.readVarIntLoop M cap (r.ReadUBitLong 8).2
      (result ||| (((r.ReadUBitLong 8).1 &&& 0x7F) <<< (7 * count)) % M) (count + 1)
  else (result ||| (((r.ReadUBitLong 8).1 &&& 0x7F) <<< (7 * count)) % M,
    (r.ReadUBitLong 8).2)
termination_by cap - count
decreasing_by omega

/-- `bf_read::ReadVarInt32` (bitbuf.cpp lines 864-878). -/
def bf_read.ReadVarInt32 (r : bf_read) : Nat × bf_read :=
  bf_read.readVarIntLoop (2 ^ 32) bitbuf.kMaxVarint32Bytes r 0 0

/-- `bf_read::ReadVarInt64` (bitbuf.cpp lines 880-894). -/
def bf_read.ReadVarInt64 (r : bf_read) : Nat × bf_read :=
  bf_read.readVarIntLoop (2 ^ 64) bitbuf.kMaxVarintBytes r 0 0

/-- `bf_read::ReadSignedVarInt32` (bitbuf.cpp lines 896-900). -/
def bf_read.ReadSignedVarInt32 (r : bf_read) : Int × bf_read :=
  (bitbuf.ZigZagDecode32 r.ReadVarInt32.1, r.ReadVarInt32.2)

/-- `bf_read::ReadSignedVarInt64` (bitbuf.cpp lines 902-906).  The source
declares the local receiving `ReadVarInt64()`'s result as `uint32`
(`uint32 value = ReadVarInt64();`), so the 64-bit varint is truncated to
its low 32 bits before `ZigZagDecode64`. -/
def bf_read.ReadSignedVarInt64 (r : bf_read) : Int × bf_read :=
  (bitbuf.ZigZagDecode64 (r.ReadVarInt64.1 % 2 ^ 32), r.ReadVarInt64.2)

/-! ### Read-loop characterization -/

/-- The value the varint read loop assembles from the byte list `bs`
starting at group index `count`, in `M`-modular machine arithmetic. -/
def varintAccum (M count : Nat) : List Nat → Nat
  | [] => 0
  | b :: bs => (((b &&& 0x7F) <<< (7 * count)) % M) ||| varintAccum M (count + 1) bs

theorem ReadUBitLong_snd_iCurBit (r : bf_read) (n : Nat) :
    (r.ReadUBitLong n).2.iCurBit ≤ r.iCurBit + n ∧
      (r.ReadUBitLong n).2.data = r.data := by
  unfold bf_read.ReadUBitLong
  by_cases h1 : r.bOverflow
  · simp [h1]
  · by_cases h2 : r.nDataBits < r.iCurBit + n <;> simp [h1, h2] <;> omega

theorem readVarIntLoop_advance_aux (M cap : Nat) :
    ∀ (n count : Nat), cap ≤ count + n → ∀ (r : bf_read) (result : Nat),
      (bf_read.readVarIntLoop M cap r result count).2.iCurBit ≤
        r.iCurBit + 8 * (cap - count) := by
  intro n
  induction n with
  | zero =>
    intro count hc r result
    rw [bf_read.readVarIntLoop, if_pos (by omega)]
    dsimp only
    omega
  | succ n ih =>
    intro count hc r result
    rw [bf_read.readVarIntLoop]
    by_cases hcc : cap ≤ count
    · rw [if_pos hcc]; dsimp only; omega
    · rw [if_neg hcc]
      have hr1 := ReadUBitLong_snd_iCurBit r 8
      by_cases hb : (r.ReadUBitLong 8).1 &&& 0x80 ≠ 0
      · rw [if_pos hb]
        have := ih (count + 1) (by omega) (r.ReadUBitLong 8).2
          (result ||| (((r.ReadUBitLong 8).1 &&& 0x7F) <<< (7 * count)) % M)
        omega
      · rw [if_neg hb]
        dsimp only
        omega

/-- The varint read loop never advances the cursor past `8 * (cap - count)`
bits beyond where it started, on any stream. -/
theorem readVarIntLoop_advance (M cap : Nat) (count : Nat) (r : bf_read)
    (result : Nat) :
    (bf_read.readVarIntLoop M cap r result count).2.iCurBit ≤
      r.iCurBit + 8 * (cap - count) :=
  readVarIntLoop_advance_aux M cap cap count (by omega) r result

/-- A varint read over a stream holding the byte list `bs` at the cursor,
where each byte but the last has the continuation bit set, the last has
it clear, and at most `cap - count` bytes are listed: the loop consumes
exactly the list and returns the assembled value. -/
theorem readVarIntLoop_terminated (M cap : Nat) :
    ∀ (bs : List Nat) (r : bf_read) (result count : Nat),
      r.bOverflow = false →
      count + bs.length ≤ cap →
      r.iCurBit + 8 * bs.length ≤ r.nDataBits →
      (∀ j (hj : j < bs.length),
        bitsToNat r.data (r.iCurBit + 8 * j) 8 = bs.get ⟨j, hj⟩) →
      (∀ j (hj : j < bs.length), j + 1 < bs.length → bs.get ⟨j, hj⟩ &&& 0x80 ≠ 0) →
      (∀ (h : bs ≠ []), bs.getLast h &&& 0x80 = 0) →
      bs ≠ [] →
      bf_read.readVarIntLoop M cap r result count =
        (result ||| varintAccum M count bs,
          { r with iCurBit := r.iCurBit + 8 * bs.length }) := by
  intro bs
  induction bs with
  | nil => intro r result count _ _ _ _ _ _ hne; exact absurd rfl hne
  | cons b bs ih =>
    intro r result count hov hcap hfit hbytes hcont hlast _
    rw [bf_read.readVarIntLoop, if_neg (by simp at hcap ⊢; omega)]
    have h8 : r.iCurBit + 8 ≤ r.nDataBits := by simp at hfit; omega
    have hread := ReadUBitLong_eq r 8 hov h8
    have hb0 : (r.ReadUBitLong 8).1 = b := by
      rw [hread]
      have := hbytes 0 (by simp)
      simpa using this
    cases bs with
    | nil =>
      have hb : b &&& 0x80 = 0 := by simpa using hlast (by simp)
      rw [if_neg (by rw [hb0, hb]; simp)]
      rw [hb0, hread]
      dsimp only
      simp only [varintAccum, Nat.or_zero, List.length_cons, List.length_nil]
    | cons b1 bs1 =>
      have hb : b &&& 0x80 ≠ 0 := by
        have := hcont 0 (by simp) (by simp)
        simpa using this
      rw [if_pos (by rw [hb0]; exact hb)]
      rw [hb0, hread]
      dsimp only
      have hres := ih { r with iCurBit := r.iCurBit + 8 }
        (result ||| ((b &&& 0x7F) <<< (7 * count)) % M) (count + 1)
        hov
        (by simp at hcap ⊢; omega)
        (by simp at hfit ⊢; omega)
        (by
          intro j hj
          have := hbytes (j + 1) (by simpa using Nat.succ_lt_succ hj)
          simp only [List.get] at this ⊢
          have he : r.iCurBit + 8 * (j + 1) = r.iCurBit + 8 + 8 * j := by omega
          rw [he] at this
          exact this)
        (by
          intro j hj hj1
          have := hcont (j + 1) (by simpa using Nat.succ_lt_succ hj)
            (by simp at hj1 ⊢; omega)
          simpa [List.get] using this)
        (by
          intro h
          have := hlast (by simp)
          rwa [List.getLast_cons h] at this)
        (by simp)
      rw [hres]
      have harith : r.iCurBit + 8 + 8 * (b1 :: bs1).length =
          r.iCurBit + 8 * ((b :: b1 :: bs1).length) := by
        simp; omega
      simp only [varintAccum, ← Nat.or_assoc]
      rw [harith]

/-- A varint read over a stream whose next `cap - count` bytes all have
the continuation bit set: the loop hits the cap and returns the partial
value assembled from exactly those bytes. -/
theorem readVarIntLoop_capped (M cap : Nat) :
    ∀ (bs : List Nat) (r : bf_read) (result count : Nat),
      r.bOverflow = false →
      count + bs.length = cap →
      r.iCurBit + 8 * bs.length ≤ r.nDataBits →
      (∀ j (hj : j < bs.length),
        bitsToNat r.data (r.iCurBit + 8 * j) 8 = bs.get ⟨j, hj⟩) →
      (∀ j (hj : j < bs.length), bs.get ⟨j, hj⟩ &&& 0x80 ≠ 0) →
      bf_read.readVarIntLoop M cap r result count =
        (result ||| varintAccum M count bs,
          { r with iCurBit := r.iCurBit + 8 * bs.length }) := by
  intro bs
  induction bs with
  | nil =>
    intro r result count hov hcap _ _ _
    rw [bf_read.readVarIntLoop, if_pos (by simp at hcap; omega)]
    simp only [varintAccum, Nat.or_zero, List.length_nil, Nat.mul_zero, Nat.add_zero]
  | cons b bs ih =>
    intro r result count hov hcap hfit hbytes hcont
    rw [bf_read.readVarIntLoop, if_neg (by simp at hcap ⊢; omega)]
    have h8 : r.iCurBit + 8 ≤ r.nDataBits := by simp at hfit; omega
    have hread := ReadUBitLong_eq r 8 hov h8
    have hb0 : (r.ReadUBitLong 8).1 = b := by
      rw [hread]
      have := hbytes 0 (by simp)
      simpa using this
    have hb : b &&& 0x80 ≠ 0 := by simpa using hcont 0 (by simp)
    rw [if_pos (by rw [hb0]; exact hb)]
    rw [hb0, hread]
    dsimp only
    have hres := ih { r with iCurBit := r.iCurBit + 8 }
      (result ||| ((b &&& 0x7F) <<< (7 * count)) % M) (count + 1)
      hov
      (by simp at hcap ⊢; omega)
      (by simp at hfit ⊢; omega)
      (by
        intro j hj
        have := hbytes (j + 1) (by simpa using Nat.succ_lt_succ hj)
        simp only [List.get] at this ⊢
        have he : r.iCurBit + 8 * (j + 1) = r.iCurBit + 8 + 8 * j := by omega
        rw [he] at this
        exact this)
      (by
        intro j hj
        have := hcont (j + 1) (by simpa using Nat.succ_lt_succ hj)
        simpa [List.get] using this)
    rw [hres]
    have harith : r.iCurBit + 8 + 8 * bs.length =
        r.iCurBit + 8 * ((b :: bs).length) := by
      simp; omega
    simp only [varintAccum, ← Nat.or_assoc]
    rw [harith]

/-- An all-ones buffer: every byte is `0xFF` (a corrupt varint stream with
no terminating byte). -/
def onesBuf : Nat → Bool := fun _ => true

/-- C6: `ReadVarInt32`/`ReadVarInt64` read at most 5 resp. 10 bytes on any
stream whatsoever (the cursor advances at most `kMax*8` bits), and when
the cap's worth of bytes all have the continuation bit `0x80` set the read
stops at exactly the cap and returns the partial value assembled from
those groups — so the varint read terminates on every input, including
corrupt streams with no terminating byte. -/
theorem c6_varint_read_cap :
    (∀ r : bf_read,
      r.ReadVarInt32.2.iCurBit ≤ r.iCurBit + bitbuf.kMaxVarint32Bytes * 8 ∧
      r.ReadVarInt64.2.iCurBit ≤ r.iCurBit + bitbuf.kMaxVarintBytes * 8) ∧
    (∀ (r : bf_read) (bs : List Nat), r.bOverflow = false →
      bs.length = bitbuf.kMaxVarint32Bytes →
      r.iCurBit + 8 * bs.length ≤ r.nDataBits →
      (∀ j (hj : j < bs.length),
        bitsToNat r.data (r.iCurBit + 8 * j) 8 = bs.get ⟨j, hj⟩) →
      (∀ j (hj : j < bs.length), bs.get ⟨j, hj⟩ &&& 0x80 ≠ 0) →
      r.ReadVarInt32 = (varintAccum (2 ^ 32) 0 bs,
        { r with iCurBit := r.iCurBit + bitbuf.kMaxVarint32Bytes * 8 })) ∧
    (∀ (r : bf_read) (bs : List Nat), r.bOverflow = false →
      bs.length = bitbuf.kMaxVarintBytes →
      r.iCurBit + 8 * bs.length ≤ r.nDataBits →
      (∀ j (hj : j < bs.length),
        bitsToNat r.data (r.iCurBit + 8 * j) 8 = bs.get ⟨j, hj⟩) →
      (∀ j (hj : j < bs.length), bs.get ⟨j, hj⟩ &&& 0x80 ≠ 0) →
      r.ReadVarInt64 = (varintAccum (2 ^ 64) 0 bs,
        { r with iCurBit := r.iCurBit + bitbuf.kMaxVarintBytes * 8 })) := by
  refine ⟨fun r => ⟨?_, ?_⟩, ?_, ?_⟩
  · have := readVarIntLoop_advance (2 ^ 32) bitbuf.kMaxVarint32Bytes 0 r 0
    simpa [bf_read.ReadVarInt32] using this
  · have := readVarIntLoop_advance (2 ^ 64) bitbuf.kMaxVarintBytes 0 r 0
    simpa [bf_read.ReadVarInt64] using this
  · intro r bs hov hlen hfit hbytes hcont
    have := readVarIntLoop_capped (2 ^ 32) bitbuf.kMaxVarint32Bytes bs r 0 0
      hov (by omega) hfit hbytes hcont
    rw [bf_read.ReadVarInt32, this, Nat.zero_or, hlen]
    norm_num [bitbuf.kMaxVarint32Bytes]
  · intro r bs hov hlen hfit hbytes hcont
    have := readVarIntLoop_capped (2 ^ 64) bitbuf.kMaxVarintBytes bs r 0 0
      hov (by omega) hfit hbytes hcont
    rw [bf_read.ReadVarInt64, this, Nat.zero_or, hlen]
    norm_num [bitbuf.kMaxVarintBytes]

/-- Witness for C6 on the all-`0xFF` stream: the 32-bit read stops after
exactly 5 bytes with partial value `2^32-1`, the 64-bit read after
exactly 10 bytes with partial value `2^64-1`. -/
theorem c6_varint_read_cap_witness :
    (bf_read.StartReading onesBuf 10 0 none).ReadVarInt32.1 = 2 ^ 32 - 1 ∧
    (bf_read.StartReading onesBuf 10 0 none).ReadVarInt32.2.iCurBit = 40 ∧
    (bf_read.StartReading onesBuf 10 0 none).ReadVarInt64.1 = 2 ^ 64 - 1 ∧
    (bf_read.StartReading onesBuf 10 0 none).ReadVarInt64.2.iCurBit = 80 := by
  have h32 := c6_varint_read_cap.2.1 (bf_read.StartReading onesBuf 10 0 none)
    [255, 255, 255, 255, 255] (by decide) (by decide) (by decide)
    (by decide) (by decide)
  have h64 := c6_varint_read_cap.2.2 (bf_read.StartReading onesBuf 10 0 none)
    [255, 255, 255, 255, 255, 255, 255, 255, 255, 255] (by decide) (by decide)
    (by decide) (by decide) (by decide)
  refine ⟨?_, ?_, ?_, ?_⟩
  · rw [h32]; decide
  · rw [h32]; decide
  · rw [h64]; decide
  · rw [h64]; decide

/-! ### Zig-zag encoding (claim C3) -/

theorem two_mul_add_eq_bit (a r : Nat) (hr : r < 2) :
    2 * a + r = Nat.bit (decide (r = 1)) a := by
  interval_cases r <;> simp [Nat.bit_val]

theorem xor_two_mul_add (a b r s : Nat) (hr : r < 2) (hs : s < 2) :
    (2 * a + r) ^^^ (2 * b + s) = 2 * (a ^^^ b) + (r ^^^ s) := by
  rw [two_mul_add_eq_bit a r hr, two_mul_add_eq_bit b s hs, Nat.xor_bit, Nat.bit_val]
  congr 1
  interval_cases r <;> interval_cases s <;> rfl

/-- XOR with an all-ones mask is complement: `x ^^^ (2^m - 1) = 2^m - 1 - x`
for `x < 2^m`. -/
theorem xor_two_pow_sub_one_of_lt : ∀ (m x : Nat), x < 2 ^ m →
    x ^^^ (2 ^ m - 1) = 2 ^ m - 1 - x := by
  intro m
  induction m with
  | zero => intro x hx; interval_cases x; rfl
  | succ m ih =>
    intro x hx
    have h2 : 2 ^ (m + 1) = 2 * 2 ^ m := by rw [pow_succ]; ring
    have hp : 1 ≤ 2 ^ m := Nat.one_le_two_pow
    have hd : x / 2 < 2 ^ m := by omega
    have e1 : x = 2 * (x / 2) + x % 2 := by omega
    have e2 : 2 ^ (m + 1) - 1 = 2 * (2 ^ m - 1) + 1 := by omega
    calc x ^^^ (2 ^ (m + 1) - 1)
        = (2 * (x / 2) + x % 2) ^^^ (2 * (2 ^ m - 1) + 1) := by rw [← e1, ← e2]
      _ = 2 * ((x / 2) ^^^ (2 ^ m - 1)) + (x % 2 ^^^ 1) :=
          xor_two_mul_add _ _ _ _ (by omega) (by omega)
      _ = 2 * (2 ^ m - 1 - x / 2) + (x % 2 ^^^ 1) := by rw [ih _ hd]
      _ = 2 ^ (m + 1) - 1 - x := by
          rcases (by omega : x % 2 = 0 ∨ x % 2 = 1) with h | h
          · rw [h]; simp only [Nat.zero_xor]; omega
          · rw [h]; simp only [Nat.xor_self]; omega

/-- Zig-zag decode inverts zig-zag encode on every `int32` value,
including the most negative one. -/
theorem zigZag32_roundtrip (n : Int) (h1 : -(2 ^ 31) ≤ n) (h2 : n < 2 ^ 31) :
    bitbuf.ZigZagDecode32 (bitbuf.ZigZagEncode32 n) = n := by
  have hpi31 : (2 ^ 31 : Int) = 2147483648 := by norm_num
  have hpi32 : (2 ^ 32 : Int) = 4294967296 := by norm_num
  have hpn31 : (2 ^ 31 : Nat) = 2147483648 := by norm_num
  have hpn32 : (2 ^ 32 : Nat) = 4294967296 := by norm_num
  unfold bitbuf.ZigZagEncode32 bitbuf.ZigZagDecode32 toUInt32 ofUInt32
  by_cases hn : 0 ≤ n
  · have e1 : n >>> (31 : Nat) = 0 := by
      rw [Int.shiftRight_eq_div_pow]
      have hc : (2 : Int) ^ 31 = ((2 ^ 31 : Nat) : Int) := by push_cast
      omega
    have e2 : (2 * n) % (2 ^ 32 : Int) = 2 * n := by omega
    rw [e1, e2]
    have e3 : ((0 : Int) % (2 ^ 32 : Int)).toNat = 0 := by norm_num
    rw [e3, Nat.xor_zero]
    set K : Nat := (2 * n).toNat with hKdef
    have hK : (K : Int) = 2 * n := Int.toNat_of_nonneg (by omega)
    have hKeven : K % 2 = 0 := by omega
    have hKlt : K < 2 ^ 32 := by omega
    rw [Nat.and_one_is_mod, hKeven, Nat.shiftRight_eq_div_pow]
    have e4 : (2 ^ 32 - 0) % 2 ^ 32 = 0 := by omega
    rw [e4, Nat.xor_zero]
    have e5 : K / 2 ^ 1 < 2 ^ 31 := by omega
    rw [if_pos e5]
    omega
  · have e1 : n >>> (31 : Nat) = -1 := by
      rw [Int.shiftRight_eq_div_pow]
      have hc : (2 : Int) ^ 31 = ((2 ^ 31 : Nat) : Int) := by push_cast
      omega
    rw [e1]
    have e2 : ((-1 : Int) % (2 ^ 32 : Int)).toNat = 2 ^ 32 - 1 := by
      rw [hpi32, hpn32]; rfl
    rw [e2]
    have hKnn : (0 : Int) ≤ 2 * n % 2 ^ 32 := Int.emod_nonneg _ (by omega)
    set K : Nat := (2 * n % (2 ^ 32 : Int)).toNat with hKdef
    have hK : (K : Int) = 2 * n + 2 ^ 32 := by
      have : (2 * n) % (2 ^ 32 : Int) = 2 * n + 2 ^ 32 := by omega
      rw [hKdef, this]
      exact Int.toNat_of_nonneg (by omega)
    have hKlt : K < 2 ^ 32 := by omega
    have hKeven : K % 2 = 0 := by omega
    rw [xor_two_pow_sub_one_of_lt 32 K hKlt]
    set z : Nat := 2 ^ 32 - 1 - K with hzdef
    have hzodd : z % 2 = 1 := by omega
    rw [Nat.and_one_is_mod, hzodd, Nat.shiftRight_eq_div_pow]
    have e3 : (2 ^ 32 - 1) % 2 ^ 32 = 2 ^ 32 - 1 := by omega
    rw [e3]
    have e4 : z / 2 ^ 1 < 2 ^ 32 := by omega
    rw [xor_two_pow_sub_one_of_lt 32 (z / 2 ^ 1) e4]
    have e5 : ¬(2 ^ 32 - 1 - z / 2 ^ 1 < 2 ^ 31) := by omega
    rw [if_neg e5]
    omega

/-- Zig-zag decode inverts zig-zag encode on every `int64` value,
including the most negative one. -/
theorem zigZag64_roundtrip (n : Int) (h1 : -(2 ^ 63) ≤ n) (h2 : n < 2 ^ 63) :
    bitbuf.ZigZagDecode64 (bitbuf.ZigZagEncode64 n) = n := by
  have hpi63 : (2 ^ 63 : Int) = 9223372036854775808 := by norm_num
  have hpi64 : (2 ^ 64 : Int) = 18446744073709551616 := by norm_num
  have hpn63 : (2 ^ 63 : Nat) = 9223372036854775808 := by norm_num
  have hpn64 : (2 ^ 64 : Nat) = 18446744073709551616 := by norm_num
  unfold bitbuf.ZigZagEncode64 bitbuf.ZigZagDecode64 toUInt64 ofUInt64
  by_cases hn : 0 ≤ n
  · have e1 : n >>> (63 : Nat) = 0 := by
      rw [Int.shiftRight_eq_div_pow]
      have hc : (2 : Int) ^ 63 = ((2 ^ 63 : Nat) : Int) := by push_cast
      omega
    have e2 : (2 * n) % (2 ^ 64 : Int) = 2 * n := by omega
    rw [e1, e2]
    have e3 : ((0 : Int) % (2 ^ 64 : Int)).toNat = 0 := by norm_num
    rw [e3, Nat.xor_zero]
    set K : Nat := (2 * n).toNat with hKdef
    have hK : (K : Int) = 2 * n := Int.toNat_of_nonneg (by omega)
    have hKeven : K % 2 = 0 := by omega
    have hKlt : K < 2 ^ 64 := by omega
    rw [Nat.and_one_is_mod, hKeven, Nat.shiftRight_eq_div_pow]
    have e4 : (2 ^ 64 - 0) % 2 ^ 64 = 0 := by omega
    rw [e4, Nat.xor_zero]
    have e5 : K / 2 ^ 1 < 2 ^ 63 := by omega
    rw [if_pos e5]
    omega
  · have e1 : n >>> (63 : Nat) = -1 := by
      rw [Int.shiftRight_eq_div_pow]
      have hc : (2 : Int) ^ 63 = ((2 ^ 63 : Nat) : Int) := by push_cast
      omega
    rw [e1]
    have e2 : ((-1 : Int) % (2 ^ 64 : Int)).toNat = 2 ^ 64 - 1 := by
      rw [hpi64, hpn64]; rfl
    rw [e2]
    have hKnn : (0 : Int) ≤ 2 * n % 2 ^ 64 := Int.emod_nonneg _ (by omega)
    set K : Nat := (2 * n % (2 ^ 64 : Int)).toNat with hKdef
    have hK : (K : Int) = 2 * n + 2 ^ 64 := by
      have : (2 * n) % (2 ^ 64 : Int) = 2 * n + 2 ^ 64 := by omega
      rw [hKdef, this]
      exact Int.toNat_of_nonneg (by omega)
    have hKlt : K < 2 ^ 64 := by omega
    have hKeven : K % 2 = 0 := by omega
    rw [xor_two_pow_sub_one_of_lt 64 K hKlt]
    set z : Nat := 2 ^ 64 - 1 - K with hzdef
    have hzodd : z % 2 = 1 := by omega
    rw [Nat.and_one_is_mod, hzodd, Nat.shiftRight_eq_div_pow]
    have e3 : (2 ^ 64 - 1) % 2 ^ 64 = 2 ^ 64 - 1 := by omega
    rw [e3]
    have e4 : z / 2 ^ 1 < 2 ^ 64 := by omega
    rw [xor_two_pow_sub_one_of_lt 64 (z / 2 ^ 1) e4]
    have e5 : ¬(2 ^ 64 - 1 - z / 2 ^ 1 < 2 ^ 63) := by omega
    rw [if_neg e5]
    omega

/-- A 16-byte writer after `WriteSignedVarInt64(2^31)`: zig-zag encodes to
`2^32`, whose varint is the 5 bytes `80 80 80 80 10`. -/
def c3w : bf_write :=
  (bf_write.StartWriting zeroBuf 16 0 none).WriteSignedVarInt64 (2 ^ 31)

/-- A reader over that writer's buffer. -/
def c3r : bf_read := bf_read.StartReading c3w.data 16 0 none

/-- C3: zig-zag decoding inverts zig-zag encoding for every `int32` and
every `int64` value, including the most negative ones — but the full
signed-64 pipeline does not return the written value: after
`WriteSignedVarInt64(2^31)` the reader's `ReadSignedVarInt64` yields `0`,
because `bf_read::ReadSignedVarInt64` stores the 64-bit varint in a
`uint32` local before un-zig-zagging. -/
theorem c3_signed_varint_roundtrip :
    (∀ n : Int, -(2 ^ 31) ≤ n → n < 2 ^ 31 →
      bitbuf.ZigZagDecode32 (bitbuf.ZigZagEncode32 n) = n) ∧
    (∀ n : Int, -(2 ^ 63) ≤ n → n < 2 ^ 63 →
      bitbuf.ZigZagDecode64 (bitbuf.ZigZagEncode64 n) = n) ∧
    c3r.ReadSignedVarInt64.1 = 0 := by
  refine ⟨fun n h1 h2 => zigZag32_roundtrip n h1 h2,
    fun n h1 h2 => zigZag64_roundtrip n h1 h2, ?_⟩
  have hterm := readVarIntLoop_terminated (2 ^ 64) 10 [128, 128, 128, 128, 16]
    c3r 0 0 (by decide) (by decide) (by decide) (by decide) (by decide)
    (fun _ => by simp; decide) (by decide)
  simp only [bf_read.ReadSignedVarInt64, bf_read.ReadVarInt64, bitbuf.kMaxVarintBytes]
  rw [hterm]
  decide

/-- Witness for C3's round-trip halves at the most negative values. -/
theorem c3_signed_varint_roundtrip_witness :
    bitbuf.ZigZagDecode32 (bitbuf.ZigZagEncode32 (-(2 ^ 31))) = -(2 ^ 31) ∧
    bitbuf.ZigZagDecode64 (bitbuf.ZigZagEncode64 (-(2 ^ 63))) = -(2 ^ 63) :=
  ⟨c3_signed_varint_roundtrip.1 (-(2 ^ 31)) (by norm_num) (by norm_num),
   c3_signed_varint_roundtrip.2.1 (-(2 ^ 63)) (by norm_num) (by norm_num)⟩

/-- A fresh 16-byte writer (cursor 0, byte-aligned, 128 bits capacity). -/
def c2w : bf_write := bf_write.StartWriting zeroBuf 16 0 none

/-- C2: the claim fails for 64-bit varints.  `WriteVarInt64`'s byte-aligned
fast path computes `size = 2` for every `data` in `[2^7, 2^28)` (its size
selector omits the 3- and 4-byte cases), so for `data = 16384 = 2^14` it
writes 2 bytes `80 00` and advances 16 bits, although
`ByteSizeVarInt64(16384) = 3`; `ReadVarInt64` on those bytes returns 0,
and the per-byte fallback writes the canonical 3 bytes `80 80 01`
instead — the round-trip, the byte-count formula and fast/slow agreement
all fail. -/
theorem c2_varint64_fast_path_divergence :
    (c2w.WriteVarInt64 16384).iCurBit = 16 ∧
    bf_write.ByteSizeVarInt64 16384 = 3 ∧
    (bf_read.StartReading (c2w.WriteVarInt64 16384).data 16 0 none).ReadVarInt64.1
      = 0 ∧
    (c2w.writeVarIntLoop 16384).iCurBit = 24 ∧
    byteAtBits (c2w.WriteVarInt64 16384).data 0 = 128 ∧
    byteAtBits (c2w.WriteVarInt64 16384).data 1 = 0 ∧
    byteAtBits (c2w.writeVarIntLoop 16384).data 0 = 128 ∧
    byteAtBits (c2w.writeVarIntLoop 16384).data 1 = 128 ∧
    byteAtBits (c2w.writeVarIntLoop 16384).data 2 = 1 := by
  have hs : c2w.writeVarIntLoop 16384 =
      ((c2w.WriteUBitLong ((16384 &&& 0x7F) ||| 0x80) 8).WriteUBitLong
        (((16384 >>> 7) &&& 0x7F) ||| 0x80) 8).WriteUBitLong
        ((16384 >>> 7 >>> 7) &&& 0x7F) 8 := by
    rw [bf_write.writeVarIntLoop, dif_pos (by decide),
        bf_write.writeVarIntLoop, dif_pos (by decide),
        bf_write.writeVarIntLoop, dif_neg (by decide)]
  have hbs : bf_write.ByteSizeVarInt64 16384 = 3 := by
    rw [bf_write.ByteSizeVarInt64, dif_pos (by decide),
        bf_write.ByteSizeVarInt64, dif_pos (by decide),
        bf_write.ByteSizeVarInt64, dif_neg (by decide)]
  have hread := readVarIntLoop_terminated (2 ^ 64) 10 [128, 0]
    (bf_read.StartReading (c2w.WriteVarInt64 16384).data 16 0 none) 0 0
    (by decide) (by decide) (by decide) (by decide) (by decide)
    (fun _ => by simp) (by decide)
  refine ⟨by decide, hbs, ?_, by rw [hs]; decide, by decide, by decide,
    by rw [hs]; decide, by rw [hs]; decide, by rw [hs]; decide⟩
  simp only [bf_read.ReadVarInt64, bitbuf.kMaxVarintBytes]
  rw [hread]
  decide
